import Mathlib

/-!
Verification development for the leaflet product extractor
(backend/app: parser_service, price_extractor, text_cleaner,
unit_price_calculator, validators, models/product, schemas/product).

Python text is modelled at the codepoint level: a string is a `List Nat`
of unicode codepoints, and the Python character classes, case maps and
regular-expression patterns used by the source are translated into
explicit scanners over such lists (ASCII model of the character
classes).  Prices, quantities and confidences are modelled as exact
rationals.  Randomness (`uuid.uuid4`) is modelled by an explicit
generator argument.
-/

namespace Leaflet

/-- A Python string, as its list of codepoints. -/
abbrev Str := List Nat

/-- Convert a Lean string literal into the codepoint model. -/
def str (s : String) : Str := s.data.map Char.toNat

/-- ASCII decimal digit, Python class `\d`. -/
def isDigitC (c : Nat) : Bool := 48 ≤ c && c ≤ 57

/-- Python whitespace class `\s` / `str.split()` separators (ASCII model):
space, tab, newline, vertical tab, form feed, carriage return. -/
def isSpaceC (c : Nat) : Bool :=
  c == 32 || c == 9 || c == 10 || c == 11 || c == 12 || c == 13

/-- ASCII letter (model of Python `str.isalpha` on the characters the
pipeline manipulates). -/
def isAlphaC (c : Nat) : Bool := (65 ≤ c && c ≤ 90) || (97 ≤ c && c ≤ 122)

/-- ASCII letter or digit. -/
def isAlnumC (c : Nat) : Bool := isAlphaC c || isDigitC c

/-- Python word class `\w` (ASCII model): letters, digits, underscore. -/
def isWordC (c : Nat) : Bool := isAlnumC c || c == 95

/-- Python `str.lower` on one character (ASCII model). -/
def toLowerC (c : Nat) : Nat := if 65 ≤ c && c ≤ 90 then c + 32 else c

/-- Python `str.upper` on one character (ASCII model). -/
def toUpperC (c : Nat) : Nat := if 97 ≤ c && c ≤ 122 then c - 32 else c

/-- `str.lower` on a whole string. -/
def lowerStr (s : Str) : Str := s.map toLowerC

/-- `str.split()`: split on whitespace runs, discarding empty fragments. -/
def splitWs (s : Str) : List Str :=
  go s.length s
where
  /-- Fuel-indexed worker; every step consumes at least one character,
  so `s.length` fuel is enough. -/
  go : Nat → Str → List Str
  | 0, _ => []
  | _ + 1, [] => []
  | fuel + 1, c :: cs =>
    if isSpaceC c then go fuel cs
    else (c :: cs.takeWhile (fun d => !isSpaceC d)) ::
         go fuel (cs.dropWhile (fun d => !isSpaceC d))

/-- `" ".join(ws)`. -/
def joinSp : List Str → Str
  | [] => []
  | [w] => w
  | w :: ws => w ++ 32 :: joinSp ws

/-- `" ".join(s.split())`: whitespace normalization. -/
def normWs (s : Str) : Str := joinSp (splitWs s)

/-- `str.strip()`: drop leading and trailing whitespace. -/
def strip (s : Str) : Str :=
  ((s.dropWhile isSpaceC).reverse.dropWhile isSpaceC).reverse

/-- One step of Python `str.title`: the flag records whether the previous
character was a letter (cased, in the ASCII model). -/
def titleAux (b : Bool) : Str → Str
  | [] => []
  | c :: cs =>
    (if isAlphaC c then (if b then toLowerC c else toUpperC c) else c) ::
      titleAux (isAlphaC c) cs

/-- Python `str.title`. -/
def titleStr (s : Str) : Str := titleAux false s

/-- Digits to the natural number they denote (base 10). -/
def natOfDigits (ds : Str) : Nat := ds.foldl (fun a c => a * 10 + (c - 48)) 0

/-- Value of `float("I.DD")` given integer digits and the two fraction
digits, as an exact rational. -/
def valDD (intDs : Str) (d1 d2 : Nat) : ℚ :=
  (natOfDigits intDs : ℚ) + (((d1 - 48) * 10 + (d2 - 48) : Nat) : ℚ) / 100

/-- Round half to even on rationals (model of Python `round` to integer). -/
def roundHalfEven (x : ℚ) : ℤ :=
  let f : ℤ := ⌊x⌋
  let r : ℚ := x - f
  if r < 1 / 2 then f
  else if (1 : ℚ) / 2 < r then f + 1
  else if f % 2 = 0 then f else f + 1

/-- Python `round(x, 2)` on the exact-rational model. -/
def pyRound2 (x : ℚ) : ℚ := (roundHalfEven (x * 100) : ℚ) / 100

/-! ### Generic scanners

Each regular-expression pattern of the source is translated into a
matcher `Str → Option β` that decides whether a match starts at the
given position (the patterns used by the source are deterministic: no
backtracking can turn a local failure into a success, except where a
matcher below implements the required backtracking explicitly).
`re.search` / first-of-`findall` is `findFirstV`; `re.sub(pattern, "")`
is `subAll`, which scans left to right, skipping each match. -/

/-- First match of a matcher over all start positions, left to right. -/
def findFirstV {β : Type} (m : Str → Option β) : Str → Option β
  | [] => none
  | c :: cs =>
    match m (c :: cs) with
    | some v => some v
    | none => findFirstV m cs

/-- `re.sub(pattern, "", s)` for a matcher returning the rest of the
string after a match (each match consumes at least one character). -/
def subAll (m : Str → Option Str) (s : Str) : Str :=
  go s.length s
where
  /-- Fuel-indexed worker; the fuel bounds the number of characters
  consumed, so `s.length` is enough. -/
  go : Nat → Str → Str
  | 0, s => s
  | _ + 1, [] => []
  | fuel + 1, c :: cs =>
    match m (c :: cs) with
    | some rest => go fuel rest
    | none => c :: go fuel cs

/-! ### Price extractor (`app/utils/price_extractor.py`) -/

/-- Matcher for the span of the pattern `\([^)]*\)` (length of the
match is irrelevant to `re.sub`, so only the rest is returned). -/
def matchParen : Str → Option Str
  | 40 :: rest =>
    match rest.dropWhile (fun c => c ≠ 41) with
    | 41 :: r2 => some r2
    | _ => none
  | _ => none

/-- Matcher for `\d+\.\d{2}\s*(?:per|/)\s*\w+` (case sensitive, as in
`extract_price`), returning the rest after the match. -/
def matchUnitSpan (s : Str) : Option Str :=
  let (ds, r1) := s.span isDigitC
  if ds.isEmpty then none
  else
    match r1 with
    | 46 :: d1 :: d2 :: r2 =>
      if isDigitC d1 && isDigitC d2 then
        let r3 := r2.dropWhile isSpaceC
        let r4? : Option Str :=
          match r3 with
          | 112 :: 101 :: 114 :: r4 => some r4     -- "per"
          | 47 :: r4 => some r4                    -- "/"
          | _ => none
        match r4? with
        | some r4 =>
          let r5 := r4.dropWhile isSpaceC
          let (w, r6) := r5.span isWordC
          if w.isEmpty then none else some r6
        | none => none
      else none
    | _ => none

/-- Matcher for `\$\s*(\d+\.\d{2})`: the captured price value. -/
def matchDollarDD : Str → Option ℚ
  | 36 :: rest =>
    let r1 := rest.dropWhile isSpaceC
    let (ds, r2) := r1.span isDigitC
    if ds.isEmpty then none
    else
      match r2 with
      | 46 :: d1 :: d2 :: _ =>
        if isDigitC d1 && isDigitC d2 then some (valDD ds d1 d2) else none
      | _ => none
  | _ => none

/-- Matcher for `\$\s*(\d+)(?!\.\d)`: the captured whole-dollar value.
When the maximal digit run is followed by `.` and a digit, the regex
engine backtracks one digit; a single digit then has nowhere to go. -/
def matchDollarWhole : Str → Option ℚ
  | 36 :: rest =>
    let r1 := rest.dropWhile isSpaceC
    let (ds, r2) := r1.span isDigitC
    if ds.isEmpty then none
    else
      match r2 with
      | 46 :: d :: _ =>
        if isDigitC d then
          if 2 ≤ ds.length then some ((natOfDigits ds.dropLast : ℚ)) else none
        else some ((natOfDigits ds : ℚ))
      | _ => some ((natOfDigits ds : ℚ))
  | _ => none

/-- `PriceExtractor.extract_price`: optionally strip parenthesized spans
and `D.DD per/slash word` spans, then first match of the ordered
patterns `\$\s*(\d+\.\d{2})`, `\$\s*(\d+)(?!\.\d)`. -/
def extract_price (text : Str) (exclude_unit_prices : Bool) : Option ℚ :=
  let clean_text :=
    if exclude_unit_prices then subAll matchUnitSpan (subAll matchParen text)
    else text
  match findFirstV matchDollarDD clean_text with
  | some v => some v
  | none => findFirstV matchDollarWhole clean_text

/-- Shared body of the three unit-price patterns after their prefix:
`(\d+\.\d{2})\s*(?:per|/)\s*(\w+)` on lower-cased text, returning the
captured value, the captured unit word and the rest. -/
def matchUnitBody (s : Str) : Option (ℚ × Str × Str) :=
  let (ds, r1) := s.span isDigitC
  if ds.isEmpty then none
  else
    match r1 with
    | 46 :: d1 :: d2 :: r2 =>
      if isDigitC d1 && isDigitC d2 then
        let r3 := r2.dropWhile isSpaceC
        let r4? : Option Str :=
          match r3 with
          | 112 :: 101 :: 114 :: r4 => some r4     -- "per"
          | 47 :: r4 => some r4                    -- "/"
          | _ => none
        match r4? with
        | some r4 =>
          let r5 := r4.dropWhile isSpaceC
          let (w, r6) := r5.span isWordC
          if w.isEmpty then none else some (valDD ds d1 d2, w, r6)
        | none => none
      else none
    | _ => none

/-- Matcher for `\$\s*(\d+\.\d{2})\s*(?:per|/)\s*(\w+)`. -/
def matchUnitP1 : Str → Option (ℚ × Str)
  | 36 :: rest =>
    (matchUnitBody (rest.dropWhile isSpaceC)).map (fun x => (x.1, x.2.1))
  | _ => none

/-- Matcher for `\(\$\s*(\d+\.\d{2})\s*(?:per|/)\s*(\w+)\)`. -/
def matchUnitP2 : Str → Option (ℚ × Str)
  | 40 :: 36 :: rest =>
    match matchUnitBody (rest.dropWhile isSpaceC) with
    | some (v, w, 41 :: _) => some (v, w)
    | _ => none
  | _ => none

/-- Matcher for `(\d+\.\d{2})\s*(?:per|/)\s*(\w+)`. -/
def matchUnitP3 (s : Str) : Option (ℚ × Str) :=
  (matchUnitBody s).map (fun x => (x.1, x.2.1))

/-- `PriceExtractor.extract_unit_price`: lower-case the text, then first
match of the three ordered unit-price patterns; the captured unit word
is `strip`ped. -/
def extract_unit_price (text : Str) : Option (ℚ × Str) :=
  let tl := lowerStr text
  let pick (r : Option (ℚ × Str)) : Option (ℚ × Str) :=
    r.map (fun x => (x.1, strip x.2))
  match findFirstV matchUnitP1 tl with
  | some r => pick (some r)
  | none =>
    match findFirstV matchUnitP2 tl with
    | some r => pick (some r)
    | none => pick (findFirstV matchUnitP3 tl)

/-! ### Text cleaner (`app/utils/text_cleaner.py`) -/

/-- `TextCleaner.NOISE_WORDS`. -/
def NOISE_WORDS : List Str :=
  [str (r"special"), str (r"offer"), str (r"buy"), str (r"now"),
   str (r"save"), str (r"only"), str (r"today"), str (r"limited"),
   str (r"new"), str (r"fresh"), str (r"quality")]

/-- `TextCleaner.OFFER_PATTERNS`. -/
def OFFER_PATTERNS : List Str :=
  [str (r"super saver"), str (r"special buy"), str (r"aldi special"),
   str (r"limited time"), str (r"while stocks last"), str (r"special offer")]

/-- Character class kept by `re.sub(r'[^\w\s\-\&\(\)\/]', '', s)`:
word characters, whitespace, hyphen, ampersand, parentheses, slash. -/
def keepC (c : Nat) : Bool :=
  isWordC c || isSpaceC c || c == 45 || c == 38 || c == 40 || c == 41 || c == 47

/-- `TextCleaner.clean_product_name`. -/
def clean_product_name (text : Str) : Str :=
  if text.isEmpty then []
  else
    let c1 := normWs text                 -- " ".join(text.split())
    let c2 := c1.filter keepC             -- drop non-kept characters
    let c3 := titleStr c2                 -- .title()
    let ws := (splitWs c3).filter (fun w => !(NOISE_WORDS.contains (lowerStr w)))
    strip (joinSp ws)                     -- " ".join(words)  then .strip()

/-- Matcher for `\d+\s*(?:g|kg|ml|l|pack)` with `re.IGNORECASE`: returns
the matched span (as written in the input) and the rest.  The
alternatives are tried in source order. -/
def matchQty1 (s : Str) : Option (Str × Str) :=
  let (ds, r1) := s.span isDigitC
  if ds.isEmpty then none
  else
    let (sp, r2) := r1.span isSpaceC
    let tryUnit (u : Str) : Option (Str × Str) :=
      if (r2.take u.length).map toLowerC = u && u.length ≤ r2.length then
        some (ds ++ sp ++ r2.take u.length, r2.drop u.length)
      else none
    match tryUnit (str (r"g")) with
    | some x => some x
    | none =>
      match tryUnit (str (r"kg")) with
      | some x => some x
      | none =>
        match tryUnit (str (r"ml")) with
        | some x => some x
        | none =>
          match tryUnit (str (r"l")) with
          | some x => some x
          | none => tryUnit (str (r"pack"))

/-- Matcher for `\d+\s*x\s*\d+\s*(?:g|ml)` with `re.IGNORECASE`. -/
def matchQty2 (s : Str) : Option (Str × Str) :=
  let (ds, r1) := s.span isDigitC
  if ds.isEmpty then none
  else
    let (sp1, r2) := r1.span isSpaceC
    match r2 with
    | x :: r3 =>
      if toLowerC x = 120 then
        let (sp2, r4) := r3.span isSpaceC
        let (ds2, r5) := r4.span isDigitC
        if ds2.isEmpty then none
        else
          let (sp3, r6) := r5.span isSpaceC
          let tryUnit (u : Str) : Option (Str × Str) :=
            if (r6.take u.length).map toLowerC = u && u.length ≤ r6.length then
              some (ds ++ sp1 ++ [x] ++ sp2 ++ ds2 ++ sp3 ++ r6.take u.length,
                    r6.drop u.length)
            else none
          match tryUnit (str (r"g")) with
          | some y => some y
          | none => tryUnit (str (r"ml"))
      else none
    | [] => none

/-- `TextCleaner.extract_quantity_from_name`: try the two quantity
patterns in order; on the first pattern with a match, the quantity is
that first match (stripped, lower-cased) and `re.sub` removes every
occurrence of the pattern from the name; finally the name is
whitespace-normalized and stripped. -/
def extract_quantity_from_name (text : Str) : Str × Str :=
  let hit :=
    match findFirstV matchQty1 text with
    | some m => some (m.1, subAll (fun s => (matchQty1 s).map (·.2)) text)
    | none =>
      match findFirstV matchQty2 text with
      | some m => some (m.1, subAll (fun s => (matchQty2 s).map (·.2)) text)
      | none => none
  match hit with
  | some (m, cleaned) => (strip (normWs cleaned), lowerStr (strip m))
  | none => (strip (normWs text), [])

/-- First index at which `pat` occurs as a sublist of `s` (model of
`re.search` for a pattern with no metacharacters). -/
def firstIdxOfSub (pat : Str) : Str → Option Nat
  | [] => if pat.isEmpty then some 0 else none
  | c :: cs =>
    if pat.isPrefixOf (c :: cs) then some 0
    else (firstIdxOfSub pat cs).map (· + 1)

/-- `TextCleaner.detect_special_offer`: first offer phrase (in list
order) contained in the lower-cased text; the span is taken from the
original text and title-cased. -/
def detect_special_offer (text : Str) : Str :=
  let tl := lowerStr text
  let rec go : List Str → Str
    | [] => []
    | p :: ps =>
      match firstIdxOfSub p tl with
      | some i => titleStr ((text.drop i).take p.length)
      | none => go ps
  go OFFER_PATTERNS

/-! ### Validators (`app/utils/validators.py`) -/

/-- `PriceValidator.is_valid_price`. -/
def is_valid_price (price : ℚ) : Bool :=
  if price ≤ 0 then false
  else if 10000 < price then false
  else true

/-- `PriceValidator.validate_unit_price`. -/
def pv_validate_unit_price (price unit_price : ℚ) : Bool :=
  if unit_price ≤ 0 then false
  else if price * 2 < unit_price then false
  else true

/-- `TextValidator.clean_text`: whitespace normalization, removal of
doubled spaces (no-op after normalization, kept for faithfulness),
strip. -/
def tv_clean_text (text : Str) : Str :=
  let cleaned := normWs text
  let rec replDD : Str → Str
    | 32 :: 32 :: r => 32 :: replDD r
    | c :: r => c :: replDD r
    | [] => []
  strip (replDD cleaned)

/-! ### Unit price calculator (`app/utils/unit_price_calculator.py`) -/

/-- `UnitPriceCalculator.WEIGHT_CONVERSIONS` (float constants as exact
decimal rationals). -/
def WEIGHT_CONVERSIONS : List (Str × ℚ) :=
  [(str (r"kg"), 1), (str (r"g"), 1 / 1000), (str (r"100g"), 1 / 10),
   (str (r"250g"), 1 / 4), (str (r"500g"), 1 / 2),
   (str (r"lb"), 453592 / 1000000), (str (r"oz"), 283495 / 10000000)]

/-- `UnitPriceCalculator.VOLUME_CONVERSIONS`. -/
def VOLUME_CONVERSIONS : List (Str × ℚ) :=
  [(str (r"l"), 1), (str (r"litre"), 1), (str (r"liter"), 1),
   (str (r"ml"), 1 / 1000), (str (r"100ml"), 1 / 10),
   (str (r"250ml"), 1 / 4), (str (r"500ml"), 1 / 2)]

/-- Dictionary lookup. -/
def lookupTable (table : List (Str × ℚ)) (key : Str) : Option ℚ :=
  (table.find? (fun e => e.1 = key)).map (·.2)

/-- `UnitPriceCalculator.calculate_unit_price`. -/
def calculate_unit_price (total_price quantity : ℚ) (unit : Str) : Option ℚ :=
  if total_price ≤ 0 ∨ quantity ≤ 0 then none
  else
    -- unit_lower = unit.lower().strip()
    match lookupTable WEIGHT_CONVERSIONS (strip (lowerStr unit)) with
    | some conversion => some (pyRound2 (total_price / (quantity * conversion)))
    | none =>
      match lookupTable VOLUME_CONVERSIONS (strip (lowerStr unit)) with
      | some conversion => some (pyRound2 (total_price / (quantity * conversion)))
      | none =>
        -- unknown unit ("each", "pack", ...): plain price / quantity
        some (pyRound2 (total_price / quantity))

/-- `UnitPriceCalculator.normalize_unit`. -/
def normalize_unit (unit : Str) : Str :=
  let u := strip (lowerStr unit)
  let mapping : List (Str × Str) :=
    [(str (r"kilogram"), str (r"kg")), (str (r"kilograms"), str (r"kg")),
     (str (r"gram"), str (r"g")), (str (r"grams"), str (r"g")),
     (str (r"litre"), str (r"l")), (str (r"liter"), str (r"l")),
     (str (r"litres"), str (r"l")), (str (r"liters"), str (r"l")),
     (str (r"milliliter"), str (r"ml")), (str (r"millilitre"), str (r"ml")),
     (str (r"milliliters"), str (r"ml")), (str (r"millilitres"), str (r"ml"))]
  match (mapping.find? (fun e => e.1 = u)).map (·.2) with
  | some v => v
  | none => u

/-! ### Data model (`app/models/product.py`, `app/schemas/product.py`) -/

/-- `BoundingBox`: four integer corner points. -/
structure BBox where
  top_left : ℤ × ℤ
  top_right : ℤ × ℤ
  bottom_right : ℤ × ℤ
  bottom_left : ℤ × ℤ
deriving DecidableEq, Repr

/-- `BoundingBox.center` (Python `//` is floor division). -/
def BBox.center (b : BBox) : ℤ × ℤ :=
  ((b.top_left.1 + b.bottom_right.1).fdiv 2,
   (b.top_left.2 + b.bottom_right.2).fdiv 2)

/-- `BoundingBox.width`. -/
def BBox.width (b : BBox) : ℤ := b.bottom_right.1 - b.top_left.1

/-- `BoundingBox.height`. -/
def BBox.height (b : BBox) : ℤ := b.bottom_right.2 - b.top_left.2

/-- `BoundingBox.area`. -/
def BBox.area (b : BBox) : ℤ := b.width * b.height

/-- `OCRResult`. -/
structure Det where
  bbox : BBox
  text : Str
  confidence : ℚ
deriving DecidableEq, Repr

/-- An OCR detection tagged with its position in the input list; the tag
models Python object identity (`id(result)`), each list entry being a
distinct object. -/
abbrev TDet := Nat × Det

/-- `ProductRegion` (the `bbox` field is never set by the clusterer). -/
structure Region where
  texts : List TDet
deriving DecidableEq, Repr

/-- `ProductRegion.combined_text`: member texts joined by spaces. -/
def Region.combined_text (r : Region) : Str :=
  joinSp (r.texts.map (fun td => td.2.text))

/-- `ProductRegion.average_confidence`. -/
def Region.average_confidence (r : Region) : ℚ :=
  if r.texts.isEmpty then 0
  else (r.texts.map (fun td => td.2.confidence)).sum / r.texts.length

/-- Pydantic `Position` schema value. -/
structure Position where
  x : ℤ
  y : ℤ
  width : ℤ
  height : ℤ
deriving DecidableEq, Repr

/-- Pydantic `Product` schema value. -/
structure Product where
  id : Str
  name : Str
  description : Option Str
  price : ℚ
  unit_price : Option ℚ
  unit : Option Str
  currency : Str
  special_offer : Option Str
  position : Option Position
  confidence : ℚ
deriving DecidableEq, Repr

/-- Pydantic validation of `Position(...)`: `x ≥ 0`, `y ≥ 0`,
`width > 0`, `height > 0`; failure raises, modelled as `none`. -/
def mkPosition (x y width height : ℤ) : Option Position :=
  if 0 ≤ x ∧ 0 ≤ y ∧ 0 < width ∧ 0 < height then
    some ⟨x, y, width, height⟩
  else none

/-- Pydantic validation of `Product(...)`: field constraints
(`name` min_length 1, `price > 0`, `unit_price > 0` when present,
`0 ≤ confidence ≤ 1`) are checked on the raw values, then the
field validators round prices to 2 places and strip whitespace from
name and description; failure raises, modelled as `none`. -/
def mkProduct (id name : Str) (description : Option Str) (price : ℚ)
    (unit_price : Option ℚ) (unit : Option Str) (currency : Str)
    (special_offer : Option Str) (position : Option Position)
    (confidence : ℚ) : Option Product :=
  if name.length < 1 then none
  else if ¬ 0 < price then none
  else if (match unit_price with | some up => decide (¬ 0 < up) | none => false) then none
  else if ¬ (0 ≤ confidence ∧ confidence ≤ 1) then none
  else
    some { id := id, name := strip name, description := description.map strip,
           price := pyRound2 price, unit_price := unit_price.map pyRound2,
           unit := unit, currency := currency, special_offer := special_offer,
           position := position, confidence := confidence }

/-! ### Parser service (`app/services/parser_service.py`) -/

/-- Matcher for `(\d+\.\d{2})|(\d+)`: at a digit, the first alternative
matches when the maximal digit run is followed by `.` and two digits,
otherwise the second alternative takes the run; `float(match.group(0))`
gives the value. -/
def matchBareNum (s : Str) : Option ℚ :=
  let (ds, r) := s.span isDigitC
  if ds.isEmpty then none
  else
    match r with
    | 46 :: d1 :: d2 :: _ =>
      if isDigitC d1 && isDigitC d2 then some (valDD ds d1 d2)
      else some ((natOfDigits ds : ℚ))
    | _ => some ((natOfDigits ds : ℚ))

/-- Python truthiness of an optional float (`None` and `0.0` are falsy). -/
def optFalsy : Option ℚ → Bool
  | none => true
  | some v => v == 0

/-- The shared lenient price detection of `_find_price_regions` and
`_extract_product_from_region`: `extract_price` with unit-price
exclusion, falling back to a bare `(\d+\.\d{2})|(\d+)` search when the
result is falsy. -/
def lenient_price (text : Str) : Option ℚ :=
  let price := extract_price text true
  if optFalsy price then findFirstV matchBareNum text else price

/-- `if price and is_valid_price(price)` applied to a lenient price. -/
def accept_price (p : Option ℚ) : Option ℚ :=
  match p with
  | some v => if v ≠ 0 && is_valid_price v then some v else none
  | none => none

/-- Squared euclidean distance between two centers (the source compares
`sqrt(d2) < radius`; we compare `d2 < radius^2`, which is equivalent on
integer inputs). -/
def distSq (c1 c2 : ℤ × ℤ) : ℤ := (c1.1 - c2.1) ^ 2 + (c1.2 - c2.2) ^ 2

/-- Stable insertion sort: `skip x y` tells whether the element `x`
being inserted must be placed after `y`.  With `skip x y = (key y < key x)`
this is Python `sorted(key=...)` (ascending, stable); with
`skip x y = (key x < key y)` it is `sorted(key=..., reverse=True)`. -/
def insertBy {α : Type} (skip : α → α → Bool) (x : α) : List α → List α
  | [] => [x]
  | y :: ys => if skip x y then y :: insertBy skip x ys else x :: y :: ys

/-- Sort by repeated stable insertion (later elements are inserted
first, and an inserted element goes before the later elements it does
not `skip`). -/
def sortBy {α : Type} (skip : α → α → Bool) : List α → List α
  | [] => []
  | x :: xs => insertBy skip x (sortBy skip xs)

/-- The price anchors of `_find_price_regions`: detections whose text
bears a truthy, valid lenient price, with that price. -/
def price_results (tds : List TDet) : List (TDet × ℚ) :=
  tds.filterMap (fun td =>
    match accept_price (lenient_price td.2.text) with
    | some v => some (td, v)
    | none => none)

/-- The nearby-text collection of `_find_price_regions`: unclaimed
detections within the radius of the anchor center, with their squared
distances, in input order. -/
def nearby_texts (center : ℤ × ℤ) (used : List Nat) (tds : List TDet) :
    List (TDet × ℤ) :=
  tds.filterMap (fun td =>
    if td.1 ∈ used then none
    else
      let d2 := distSq center td.2.bbox.center
      if d2 < 200 ^ 2 then some (td, d2) else none)

/-- The anchor loop of `_find_price_regions`: for each price anchor, in
order, claim the anchor plus the 10 nearest unclaimed detections within
the radius (stable-sorted by distance). -/
def anchor_regions (tds : List TDet) :
    List (TDet × ℚ) → List Nat → List Region
  | [], _ => []
  | (a, _) :: rest, used =>
    let used1 := a.1 :: used
    let nbrs :=
      (sortBy (fun x y => y.2 < x.2) (nearby_texts a.2.bbox.center used1 tds)).take 10
    let members := a :: nbrs.map (·.1)
    let used2 := used1 ++ nbrs.map (fun x => x.1.1)
    if members.isEmpty then anchor_regions tds rest used2
    else Region.mk members :: anchor_regions tds rest used2

/-- Lexicographic strict order on `(y, x)` sort keys. -/
def lexLt (p q : ℤ × ℤ) : Bool := p.1 < q.1 || (p.1 == q.1 && p.2 < q.2)

/-- The greedy loop of `_fallback_spatial_clustering` over the sorted
detections: each unclaimed seed claims every unclaimed detection within
150 px of its center; clusters of fewer than 2 members are dropped. -/
def fallback_clusters (sortedAll : List TDet) :
    List TDet → List Nat → List Region
  | [], _ => []
  | td :: rest, used =>
    if td.1 ∈ used then fallback_clusters sortedAll rest used
    else
      let used1 := td.1 :: used
      let near :=
        sortedAll.filterMap (fun o =>
          if o.1 ∈ used1 then none
          else if distSq td.2.bbox.center o.2.bbox.center < 150 ^ 2 then some o
          else none)
      let members := td :: near
      let used2 := used1 ++ near.map (·.1)
      if 2 ≤ members.length then
        Region.mk members :: fallback_clusters sortedAll rest used2
      else fallback_clusters sortedAll rest used2

/-- `_fallback_spatial_clustering`: sort by `(center_y, center_x)`
(stable), then greedily cluster. -/
def fallback_spatial_clustering (tds : List TDet) : List Region :=
  if tds.isEmpty then []
  else
    let key (td : TDet) : ℤ × ℤ := (td.2.bbox.center.2, td.2.bbox.center.1)
    let sortedR := sortBy (fun x y => lexLt (key y) (key x)) tds
    fallback_clusters sortedR sortedR []

/-- `_find_price_regions`. -/
def find_price_regions (tds : List TDet) : List Region :=
  let pr := price_results tds
  if pr.isEmpty then fallback_spatial_clustering tds
  else anchor_regions tds pr []

/-- Character class of `^[\d\$\.\s]+$`. -/
def isNumNoise (c : Nat) : Bool := isDigitC c || c == 36 || c == 46 || isSpaceC c

/-- Matcher for `\$?\d+\.\d{2}` (rest after the match). -/
def matchPriceTok (s : Str) : Option Str :=
  let core (t : Str) : Option Str :=
    let (ds, r) := t.span isDigitC
    if ds.isEmpty then none
    else
      match r with
      | 46 :: d1 :: d2 :: r2 =>
        if isDigitC d1 && isDigitC d2 then some r2 else none
      | _ => none
  match s with
  | 36 :: rest => core rest
  | _ => core s

/-- `re.sub(r'\b\d+\b', '', s)`: remove maximal digit runs that are
word-bounded on both sides; the flag records whether the previous
character of the original string is a word character. -/
def subBD (prevWord : Bool) (s : Str) : Str :=
  go s.length prevWord s
where
  /-- Fuel-indexed worker; every step consumes at least one character,
  so `s.length` fuel is enough. -/
  go : Nat → Bool → Str → Str
  | 0, _, s => s
  | _ + 1, _, [] => []
  | fuel + 1, pw, c :: cs =>
    if isDigitC c && !pw then
      let ds := (c :: cs).takeWhile isDigitC
      let r := (c :: cs).dropWhile isDigitC
      match r with
      | [] => []                        -- digit run removed at end of string
      | d :: _ =>
        if isWordC d then ds ++ go fuel true r  -- trailing boundary fails
        else go fuel true r                     -- digit run removed
    else c :: go fuel (isWordC c) cs

/-- `_extract_product_name_lenient`: candidates by bounding-box area
descending; skip all-numeric candidates; strip price tokens and
standalone digits; accept the first remaining candidate of length ≥ 2,
truncated to 8 words; otherwise fall back to the stripped combined
text. -/
def extract_product_name_lenient (r : Region) (combined : Str) : Str :=
  let sortedR := sortBy (fun x y => x.2.bbox.area < y.2.bbox.area) r.texts
  let rec go : List TDet → Str
    | [] =>
      let cleaned := tv_clean_text (subAll matchPriceTok combined)
      let words := splitWs cleaned
      if 8 < words.length then joinSp (words.take 8) else cleaned
    | td :: rest =>
      let candidate := strip td.2.text
      if ¬candidate.isEmpty && candidate.all isNumNoise then go rest
      else if 2 ≤ candidate.length then
        let cleaned := strip (subBD false (subAll matchPriceTok candidate))
        if 2 ≤ cleaned.length then
          let words := splitWs cleaned
          if 8 < words.length then joinSp (words.take 8) else cleaned
        else go rest
      else go rest
  go sortedR

/-- `_calculate_region_position`, including the pydantic validation of
the constructed `Position` (whose failure raises, aborting the
region). -/
def calc_region_position (r : Region) : Except Unit (Option Position) :=
  match r.texts with
  | [] => Except.ok none
  | t :: ts =>
    let xsOf (td : TDet) : List ℤ := [td.2.bbox.top_left.1, td.2.bbox.bottom_right.1]
    let ysOf (td : TDet) : List ℤ := [td.2.bbox.top_left.2, td.2.bbox.bottom_right.2]
    let all_x := ((t :: ts).map xsOf).flatten
    let all_y := ((t :: ts).map ysOf).flatten
    match all_x, all_y with
    | x0 :: xr, y0 :: yr =>
      let mnx := xr.foldl min x0
      let mxx := xr.foldl max x0
      let mny := yr.foldl min y0
      let mxy := yr.foldl max y0
      match mkPosition mnx mny (mxx - mnx) (mxy - mny) with
      | some p => Except.ok (some p)
      | none => Except.error ()
    | _, _ => Except.ok none

/-- The fields of the `Product` that `_extract_product_from_region`
assembles, short of the generated id: `none` when the region is
discarded (no valid price, name too short, or position validation
raised) before reaching the `Product(...)` construction. -/
def region_product_fields (r : Region) :
    Option (Str × Option Str × ℚ × Option ℚ × Option Str × Option Str ×
            Option Position × ℚ) :=
  let combined := r.combined_text
  match accept_price (lenient_price combined) with
  | none => none
  | some price =>
    let product_name := extract_product_name_lenient r combined
    if product_name.isEmpty || decide ((strip product_name).length < 2) then none
    else
      let cleaned_name := clean_product_name product_name
      let nq := extract_quantity_from_name cleaned_name
      let name_without_qty := nq.1
      let quantity := nq.2
      let final_name :=
        if ¬name_without_qty.isEmpty && decide (2 < name_without_qty.length) then
          name_without_qty
        else cleaned_name
      let uo := extract_unit_price combined
      let unit_price : Option ℚ := uo.map (·.1)
      let unit : Option Str := uo.map (fun x => normalize_unit x.2)
      let special_offer := detect_special_offer combined
      match calc_region_position r with
      | Except.error _ => none
      | Except.ok position =>
        some (final_name,
              (if quantity.isEmpty then none else some quantity),
              price, unit_price,
              (unit.bind (fun u => if u.isEmpty then none else some (str (r"per ") ++ u))),
              (if special_offer.isEmpty then none else some special_offer),
              position, r.average_confidence)

/-- `_extract_product_from_region`, given the id drawn for this
construction (`prod-` plus eight hex characters of `uuid4`). -/
def extract_product_from_region (idStr : Str) (r : Region) : Option Product :=
  (region_product_fields r).bind (fun f =>
    mkProduct (str (r"prod-") ++ idStr) f.1 f.2.1 f.2.2.1 f.2.2.2.1
      f.2.2.2.2.1 (str (r"AUD")) f.2.2.2.2.2.1 f.2.2.2.2.2.2.1 f.2.2.2.2.2.2.2)

/-- The per-region loop of `parse_products`: `gen k` is the hex fragment
of the `k`-th `uuid4` drawn (one per attempted `Product` construction);
a pydantic validation failure is caught and the region skipped. -/
def parse_products_go (gen : Nat → Str) : Nat → List Region → List Product
  | _, [] => []
  | k, r :: rs =>
    match region_product_fields r with
    | none => parse_products_go gen k rs
    | some _ =>
      match extract_product_from_region (gen k) r with
      | some p => p :: parse_products_go gen (k + 1) rs
      | none => parse_products_go gen (k + 1) rs

/-- `ProductParser.parse_products`, with the `uuid4` stream made
explicit. -/
def parse_products (gen : Nat → Str) (ocr_results : List Det) : List Product :=
  parse_products_go gen 0 (find_price_regions ocr_results.enum)

/-! ### Derived observations used by the theorems -/

/-- The concatenated identity tags of all region members produced by
`_find_price_regions` (the multiset union of the regions). -/
def region_member_tags (tds : List TDet) : List Nat :=
  ((find_price_regions tds).map (fun r => r.texts.map (fun td => td.1))).flatten

/-- A product with its generated id blanked, for comparing the
deterministic part of `parse_products` output. -/
def eraseId (p : Product) : Product := { p with id := [] }

/-! ### Concrete inputs used by counterexamples and witnesses -/

/-- Two price-bearing detections 14 px apart: both are anchors, and the
second is claimed by the region of the first before founding its own. -/
def detPriceA : Det := ⟨⟨(0, 0), (20, 0), (20, 20), (0, 20)⟩, str (r"$3.49"), 9 / 10⟩

/-- See `detPriceA`. -/
def detPriceB : Det := ⟨⟨(10, 10), (30, 10), (30, 30), (10, 30)⟩, str (r"$4.99"), 9 / 10⟩

/-- A price-free detection whose center is 28 px from `detPriceA`. -/
def detNoPriceA : Det := ⟨⟨(20, 20), (40, 20), (40, 40), (20, 40)⟩, str (r"aa"), 9 / 10⟩

/-- A second price-free detection, 30 px right of `detNoPriceA`. -/
def detNoPriceB : Det := ⟨⟨(50, 20), (70, 20), (70, 40), (50, 40)⟩, str (r"bb"), 8 / 10⟩

/-- One anchor and eleven detections within the radius: one more
detection than the 10-neighbor cap admits. -/
def dets12 : List Det := detPriceA :: List.replicate 11 detNoPriceA

/-- One anchor and two nearby price-free detections. -/
def dets3 : List Det := [detPriceA, detNoPriceA, detNoPriceB]

/-- The OCR sample of the repository's parser tests: a product name, a
quantity and a price, vertically stacked. -/
def detApples : Det :=
  ⟨⟨(10, 10), (100, 10), (100, 30), (10, 30)⟩, str (r"Fresh Apples"), 95 / 100⟩

/-- See `detApples`. -/
def det250g : Det := ⟨⟨(10, 35), (80, 35), (80, 50), (10, 50)⟩, str (r"250g"), 92 / 100⟩

/-- See `detApples`. -/
def det349 : Det := ⟨⟨(10, 55), (70, 55), (70, 70), (10, 70)⟩, str (r"$3.49"), 98 / 100⟩

/-- See `detApples`. -/
def sampleDets : List Det := [detApples, det250g, det349]

/-- A region whose largest detection cleans to the single letter `A`:
the pre-cleaning candidate `a$` has length 2, but cleaning strips the
dollar sign and title-cases the rest. -/
def regionShortName : Region :=
  ⟨[(0, ⟨⟨(0, 0), (100, 0), (100, 50), (0, 50)⟩, str (r"a$"), 9 / 10⟩),
    (1, ⟨⟨(0, 60), (50, 60), (50, 80), (0, 80)⟩, str (r"$3.49"), 1 / 2⟩)]⟩

/-- The product that `regionShortName` yields. -/
def productShortName : Product :=
  ⟨str (r"prod-aaaaaaaa"), str (r"A"), none, 349 / 100, none, none,
   str (r"AUD"), none, some ⟨0, 0, 100, 80⟩, 7 / 10⟩

/-! ## Helper lemmas on strings -/

theorem head_dropWhile_false (p : Nat → Bool) :
    ∀ (l : Str) (c : Nat), (l.dropWhile p).head? = some c → p c = false := by
  intro l
  induction l with
  | nil => intro c h; simp [List.dropWhile] at h
  | cons a as ih =>
    intro c h
    by_cases hp : p a
    · rw [List.dropWhile_cons_of_pos hp] at h
      exact ih c h
    · rw [List.dropWhile_cons_of_neg hp] at h
      simp only [List.head?_cons, Option.some.injEq] at h
      subst h
      simpa using hp

theorem dropWhile_eq_self_of_head (p : Nat → Bool) (l : Str)
    (h : ∀ c, l.head? = some c → p c = false) : l.dropWhile p = l := by
  cases l with
  | nil => rfl
  | cons a as =>
    have := h a rfl
    rw [List.dropWhile_cons_of_neg (by simp [this])]

theorem strip_head_false (s : Str) (c : Nat) (h : (strip s).head? = some c) :
    isSpaceC c = false := by
  unfold strip at h
  rw [List.head?_reverse] at h
  rcases hu : (s.dropWhile isSpaceC).reverse.dropWhile isSpaceC with _ | ⟨u, us⟩
  · rw [hu] at h; simp at h
  · rw [hu] at h
    have hsfx : (u :: us) <:+ (s.dropWhile isSpaceC).reverse := by
      rw [← hu]; exact List.dropWhile_suffix _
    obtain ⟨pre, hpre⟩ := hsfx
    have : (u :: us).getLast? = (s.dropWhile isSpaceC).reverse.getLast? := by
      rw [← hpre]; exact (List.getLast?_append_of_ne_nil pre (by simp)).symm
    rw [this, List.getLast?_reverse] at h
    exact head_dropWhile_false isSpaceC s c h

theorem strip_getLast_false (s : Str) (c : Nat) (h : (strip s).getLast? = some c) :
    isSpaceC c = false := by
  unfold strip at h
  rw [List.getLast?_reverse] at h
  exact head_dropWhile_false isSpaceC _ c h

theorem strip_eq_self (s : Str)
    (h1 : ∀ c, s.head? = some c → isSpaceC c = false)
    (h2 : ∀ c, s.getLast? = some c → isSpaceC c = false) : strip s = s := by
  unfold strip
  rw [dropWhile_eq_self_of_head _ _ h1]
  rw [dropWhile_eq_self_of_head _ _ (by simpa [List.head?_reverse] using h2)]
  exact List.reverse_reverse s

theorem strip_idem (s : Str) : strip (strip s) = strip s :=
  strip_eq_self _ (strip_head_false s) (strip_getLast_false s)

/- Restore the default transparency of the Batteries rational-number
operations so that concrete rational computations can be evaluated by
`decide` (kernel reduction is unaffected by these hints). -/
attribute [local semireducible] Rat.mul Rat.add Rat.inv Rat.sub Rat.ofScientific

/-- Claim C7: on the text `$3.49 ($13.96 per kg)`, `extract_price` with
`exclude_unit_prices=True` returns 3.49 (the parenthesized unit price is
stripped before matching), and `extract_unit_price` returns
`(13.96, "kg")`. -/
theorem C7_price_and_unit_price :
    extract_price (str (r"$3.49 ($13.96 per kg)")) true = some (349 / 100) ∧
    extract_unit_price (str (r"$3.49 ($13.96 per kg)")) =
      some (1396 / 100, str (r"kg")) := by
  constructor
  · decide
  · decide

/-- Claim C8: `calculate_unit_price` returns `None` exactly when
`total_price ≤ 0` or `quantity ≤ 0`; for positive inputs whose
(lower-cased, stripped) unit is in neither conversion table it returns
`round(total_price / quantity, 2)` with no conversion. -/
theorem C8_calculate_unit_price (p q : ℚ) (u : Str) :
    (calculate_unit_price p q u = none ↔ p ≤ 0 ∨ q ≤ 0) ∧
    (0 < p → 0 < q →
      lookupTable WEIGHT_CONVERSIONS (strip (lowerStr u)) = none →
      lookupTable VOLUME_CONVERSIONS (strip (lowerStr u)) = none →
      calculate_unit_price p q u = some (pyRound2 (p / q))) := by
  constructor
  · constructor
    · intro h
      by_contra hc
      unfold calculate_unit_price at h
      rw [if_neg hc] at h
      revert h
      split
      · simp
      · split <;> simp
    · intro hc
      unfold calculate_unit_price
      rw [if_pos hc]
  · intro hp hq hw hv
    unfold calculate_unit_price
    rw [if_neg (by push_neg; exact ⟨hp, hq⟩)]
    simp only [hw, hv]

/-- Claim C8 (witness): a price of 3 for quantity 2 of unit `each`
(unknown to both tables) yields `round(3/2, 2)`, and a non-positive
price yields `None`. -/
theorem C8_calculate_unit_price_witness :
    calculate_unit_price 3 2 (str (r"each")) = some (pyRound2 (3 / 2)) ∧
    calculate_unit_price (-1) 2 (str (r"each")) = none :=
  ⟨(C8_calculate_unit_price 3 2 (str (r"each"))).2
      (by decide) (by decide) (by decide) (by decide),
   (C8_calculate_unit_price (-1) 2 (str (r"each"))).1.mpr
      (Or.inl (by decide))⟩

/-- Claim C1 (counterexample): with two nearby price-bearing detections,
the second anchor is claimed by the first region and then still founds
its own region, so detection 1 appears in two regions and the multiset
union has 3 members for 2 inputs. -/
theorem C1_counterexample :
    region_member_tags ([detPriceA, detPriceB].enum) = [0, 1, 1] ∧
    ¬ ((region_member_tags ([detPriceA, detPriceB].enum)).Nodup ∧
       (region_member_tags ([detPriceA, detPriceB].enum)).length ≤ 2) := by
  constructor
  · decide
  · decide

/-- Claim C4 (counterexample): with one anchor and eleven detections
within the radius, the single produced region has only the 10 nearest
neighbors, so detection 11 is left out and the region does not contain
all 12 detections. -/
theorem C4_counterexample :
    (find_price_regions dets12.enum).length = 1 ∧
    ∀ r ∈ find_price_regions dets12.enum, ((11, detNoPriceA) : TDet) ∉ r.texts := by
  constructor
  · decide
  · decide

/-- Claim C2 (counterexample): the region `regionShortName` yields a
product whose cleaned name is the single character `A`, of trimmed
length 1 < 2 (the ≥ 2 length gate runs before cleaning). -/
theorem C2_counterexample :
    (extract_product_from_region (str (r"aaaaaaaa")) regionShortName).map
        (fun p => p.name) = some (str (r"A")) ∧
    (strip (str (r"A"))).length < 2 := by
  constructor
  · decide
  · decide

/-- Claim C3 (counterexample): two runs of `parse_products` on the same
three-detection input, with different `uuid4` draws, give different
product lists (the generated `id` differs). -/
theorem C3_counterexample :
    parse_products (fun _ => str (r"aaaaaaaa")) sampleDets ≠
    parse_products (fun _ => str (r"bbbbbbbb")) sampleDets := by
  decide

/-- Claim C5 (counterexample): on `a 1g 2g` the extractor returns the
quantity `1g` but removes every occurrence of the quantity pattern from
the name, yielding `a` rather than the claimed `a 2g` (removal of the
matched span only). -/
theorem C5_counterexample :
    extract_quantity_from_name (str (r"a 1g 2g")) = (str (r"a"), str (r"1g")) ∧
    (str (r"a"), str (r"1g")) ≠
      (strip (normWs (str (r"a 2g"))), lowerStr (strip (str (r"1g")))) := by
  constructor
  · decide
  · decide

/-! ## Fallback clustering: minimum region size (C9) -/

theorem fallback_clusters_min_members (sortedAll : List TDet) :
    ∀ (queue : List TDet) (used : List Nat) (r : Region),
      r ∈ fallback_clusters sortedAll queue used → 2 ≤ r.texts.length := by
  intro queue
  induction queue with
  | nil => intro used r h; simp [fallback_clusters] at h
  | cons td rest ih =>
    intro used r h
    rw [fallback_clusters] at h
    by_cases hu : td.1 ∈ used
    · rw [if_pos hu] at h
      exact ih _ r h
    · rw [if_neg hu] at h
      simp only [] at h
      split at h
      · rename_i hs
        rcases List.mem_cons.mp h with h1 | h2
        · subst h1
          simpa using hs
        · exact ih _ r h2
      · exact ih _ r h

/-- Claim C9: every region emitted by the fallback spatial clusterer has
at least 2 member detections. -/
theorem C9_fallback_min_two (tds : List TDet) (r : Region)
    (h : r ∈ fallback_spatial_clustering tds) : 2 ≤ r.texts.length := by
  rw [fallback_spatial_clustering] at h
  split at h
  · simp at h
  · exact fallback_clusters_min_members _ _ _ r h

/-- Claim C9 (witness): two nearby price-free detections form one
fallback region with exactly its 2 members. -/
theorem C9_fallback_min_two_witness :
    (⟨[(0, detNoPriceA), (1, detNoPriceB)]⟩ : Region) ∈
      fallback_spatial_clustering ([detNoPriceA, detNoPriceB].enum) ∧
    2 ≤ (Region.mk [(0, detNoPriceA), (1, detNoPriceB)]).texts.length :=
  ⟨by decide,
   C9_fallback_min_two ([detNoPriceA, detNoPriceB].enum)
     ⟨[(0, detNoPriceA), (1, detNoPriceB)]⟩ (by decide)⟩

/-! ## Anchor regions: shape (C10) -/

theorem anchor_regions_shape (tds : List TDet) :
    ∀ (anchors : List (TDet × ℚ)) (used : List Nat) (r : Region),
      r ∈ anchor_regions tds anchors used →
      ∃ a v rest, (a, v) ∈ anchors ∧ r.texts = a :: rest := by
  intro anchors
  induction anchors with
  | nil => intro used r h; simp [anchor_regions] at h
  | cons av rest ih =>
    intro used r h
    obtain ⟨a, v⟩ := av
    rw [anchor_regions] at h
    simp only [List.isEmpty_cons, Bool.false_eq_true, if_false] at h
    rcases List.mem_cons.mp h with h1 | h2
    · subst h1
      exact ⟨a, v, _, List.mem_cons_self _ _, rfl⟩
    · obtain ⟨a', v', rest', hmem, htexts⟩ := ih _ r h2
      exact ⟨a', v', rest', List.mem_cons_of_mem _ hmem, htexts⟩

theorem prefix_joinSp (w : Str) (ws : List Str) : w <+: joinSp (w :: ws) := by
  cases ws with
  | nil => exact ⟨[], List.append_nil w⟩
  | cons x xs => exact ⟨32 :: joinSp (x :: xs), rfl⟩

/-- Claim C10: every region emitted by the price-anchored clusterer is
non-empty, has its price anchor as first member, its combined text
starts with the anchor text, and its average confidence is the
non-empty-branch arithmetic mean. -/
theorem C10_anchor_region_layout (tds : List TDet) (r : Region)
    (h : r ∈ anchor_regions tds (price_results tds) []) :
    r.texts ≠ [] ∧
    (∃ a rest, r.texts = a :: rest ∧ (∃ v, (a, v) ∈ price_results tds) ∧
      a.2.text <+: r.combined_text) ∧
    r.average_confidence =
      (r.texts.map (fun td => td.2.confidence)).sum / r.texts.length := by
  obtain ⟨a, v, rest, hmem, htexts⟩ := anchor_regions_shape tds _ _ r h
  refine ⟨by rw [htexts]; exact List.cons_ne_nil a rest, ⟨a, rest, htexts, ⟨v, hmem⟩, ?_⟩, ?_⟩
  · rw [Region.combined_text, htexts]
    exact prefix_joinSp a.2.text (rest.map (fun td => td.2.text))
  · rw [Region.average_confidence, htexts]
    simp

/-- Claim C10 (witness): the layout facts hold for the first region of
the two-anchor input. -/
theorem C10_anchor_region_layout_witness :
    (⟨[(0, detPriceA), (1, detPriceB)]⟩ : Region) ∈
      anchor_regions ([detPriceA, detPriceB].enum)
        (price_results ([detPriceA, detPriceB].enum)) [] ∧
    (Region.mk [(0, detPriceA), (1, detPriceB)]).texts ≠ [] :=
  ⟨by decide,
   (C10_anchor_region_layout ([detPriceA, detPriceB].enum) _ (by decide)).1⟩

/-! ## Stable sort and neighbor collection lemmas -/

theorem insertBy_perm {α : Type} (skip : α → α → Bool) (x : α) (l : List α) :
    List.Perm (insertBy skip x l) (x :: l) := by
  induction l with
  | nil => exact List.Perm.refl _
  | cons y ys ih =>
    rw [insertBy]
    by_cases hs : skip x y
    · rw [if_pos hs]
      exact (List.Perm.cons y ih).trans (List.Perm.swap x y ys)
    · rw [if_neg hs]

theorem sortBy_perm {α : Type} (skip : α → α → Bool) (l : List α) :
    List.Perm (sortBy skip l) l := by
  induction l with
  | nil => exact List.Perm.refl _
  | cons x xs ih =>
    rw [sortBy]
    exact (insertBy_perm skip x (sortBy skip xs)).trans (List.Perm.cons x ih)

theorem nearby_texts_eq (center : ℤ × ℤ) (used : List Nat) (tds : List TDet) :
    nearby_texts center used tds =
      (tds.filter (fun td =>
        decide (td.1 ∉ used) && decide (distSq center td.2.bbox.center < 200 ^ 2))).map
        (fun td => (td, distSq center td.2.bbox.center)) := by
  induction tds with
  | nil => rfl
  | cons t ts ih =>
    rw [nearby_texts, List.filterMap_cons, List.filter_cons]
    rw [nearby_texts] at ih
    by_cases h1 : t.1 ∈ used
    · simp only [h1, if_true, decide_not, decide_eq_true_eq, not_true, Bool.false_and,
        if_false, ih]
      simp [h1]
    · by_cases h2 : distSq center t.2.bbox.center < 200 ^ 2
      · simp only [h1, h2, if_false, if_true, ih]
        simp [h1, h2]
      · simp only [h1, h2, if_false, ih]
        simp [h1, h2]

theorem price_results_fst_mem (tds : List TDet) (x : TDet × ℚ)
    (h : x ∈ price_results tds) : x.1 ∈ tds := by
  rw [price_results, List.mem_filterMap] at h
  obtain ⟨td, hmem, heq⟩ := h
  revert heq
  cases accept_price (lenient_price td.2.text) with
  | none => intro heq; cases heq
  | some v =>
    intro heq
    cases heq
    exact hmem

theorem perm_cons_filter_ne_tag (tds : List TDet)
    (hN : (tds.map (fun td => td.1)).Nodup) (a : TDet) (ha : a ∈ tds) :
    List.Perm tds (a :: tds.filter (fun td => !(td.1 == a.1))) := by
  induction tds with
  | nil => cases ha
  | cons t ts ih =>
    rw [List.map_cons, List.nodup_cons] at hN
    rcases List.mem_cons.mp ha with h1 | h2
    · subst h1
      rw [List.filter_cons_of_neg (by simp)]
      have hfil : ts.filter (fun td => !(td.1 == a.1)) = ts := by
        apply List.filter_eq_self.mpr
        intro td hmem
        have hne : td.1 ≠ a.1 := fun he =>
          hN.1 (he ▸ List.mem_map_of_mem (fun td => td.1) hmem)
        simpa using hne
      rw [hfil]
    · have htag : t.1 ≠ a.1 := fun he =>
        hN.1 (by rw [he]; exact List.mem_map_of_mem (fun td => td.1) h2)
      rw [List.filter_cons_of_pos (by simpa using htag)]
      exact (List.Perm.cons t (ih hN.2 h2)).trans (List.Perm.swap a t _)

/-! ## Claim C4 (amended) -/

/-- Claim C4 (amended): with exactly one price anchor, all other
detections within the anchor radius, and at most 11 detections in
total (so that the 10-neighbor cap does not bite), the clusterer
produces exactly one region whose members are a permutation of all the
detections, anchor first. -/
theorem C4_single_anchor_one_region (dets : List Det) (a : TDet) (v : ℚ)
    (h1 : price_results dets.enum = [(a, v)])
    (h2 : ∀ td ∈ dets.enum, td.1 ≠ a.1 →
      distSq a.2.bbox.center td.2.bbox.center < 200 ^ 2)
    (h3 : dets.length ≤ 11) :
    ∃ rest, find_price_regions dets.enum = [Region.mk (a :: rest)] ∧
      List.Perm (a :: rest) dets.enum := by
  have hTag : (dets.enum.map (fun td => td.1)).Nodup := by
    have := List.nodup_enum_map_fst dets
    simpa [Function.comp] using this
  have haMem : a ∈ dets.enum := by
    have : ((a, v) : TDet × ℚ) ∈ price_results dets.enum := by
      rw [h1]; exact List.mem_singleton.mpr rfl
    exact price_results_fst_mem _ _ this
  have hp := perm_cons_filter_ne_tag dets.enum hTag a haMem
  have hnear : nearby_texts a.2.bbox.center [a.1] dets.enum =
      (dets.enum.filter (fun td => !(td.1 == a.1))).map
        (fun td => (td, distSq a.2.bbox.center td.2.bbox.center)) := by
    rw [nearby_texts_eq]
    congr 1
    apply List.filter_congr
    intro td hmem
    by_cases heq : td.1 = a.1
    · simp [heq]
    · have hd : distSq a.2.bbox.center td.2.bbox.center < 40000 := by
        have := h2 td hmem heq
        norm_num at this
        exact this
      simp [heq, hd]
  have hlenF : (dets.enum.filter (fun td => !(td.1 == a.1))).length + 1 =
      dets.length := by
    have := hp.length_eq
    rw [List.enum_length] at this
    simp only [List.length_cons] at this
    exact this.symm
  have hlenS :
      (sortBy (fun x y => y.2 < x.2)
        (nearby_texts a.2.bbox.center [a.1] dets.enum)).length ≤ 10 := by
    rw [(sortBy_perm _ _).length_eq, hnear, List.length_map]
    omega
  have htake :
      (sortBy (fun x y => y.2 < x.2)
        (nearby_texts a.2.bbox.center [a.1] dets.enum)).take 10 =
      sortBy (fun x y => y.2 < x.2)
        (nearby_texts a.2.bbox.center [a.1] dets.enum) :=
    List.take_of_length_le hlenS
  refine ⟨((sortBy (fun x y => y.2 < x.2)
      (nearby_texts a.2.bbox.center [a.1] dets.enum)).take 10).map
      (fun x => x.1), ?_, ?_⟩
  · rw [find_price_regions]
    simp only [h1, List.isEmpty_cons, Bool.false_eq_true, if_false]
    rw [anchor_regions]
    simp only [List.isEmpty_cons, Bool.false_eq_true, if_false]
    rw [anchor_regions]
  · rw [htake, hnear]
    have hperm : List.Perm
        ((sortBy (fun x y => y.2 < x.2)
          ((dets.enum.filter (fun td => !(td.1 == a.1))).map
            (fun td => (td, distSq a.2.bbox.center td.2.bbox.center)))).map
          (fun x => x.1))
        (((dets.enum.filter (fun td => !(td.1 == a.1))).map
          (fun td => (td, distSq a.2.bbox.center td.2.bbox.center))).map
          (fun x => x.1)) :=
      (sortBy_perm _ _).map _
    have hid : (((dets.enum.filter (fun td => !(td.1 == a.1))).map
        (fun td => (td, distSq a.2.bbox.center td.2.bbox.center))).map
        (fun x => x.1)) = dets.enum.filter (fun td => !(td.1 == a.1)) := by
      rw [List.map_map]
      have hfun : ((fun x : TDet × ℤ => x.1) ∘
          (fun td : TDet => (td, distSq a.2.bbox.center td.2.bbox.center))) =
          fun td => td := by
        funext td; rfl
      rw [hfun]
      exact List.map_id' _
    rw [hid] at hperm
    exact (List.Perm.cons a hperm).trans hp.symm

/-- Claim C4 (witness): one `$3.49` anchor plus two price-free
detections within the radius yield exactly one region holding all
three detections. -/
theorem C4_single_anchor_one_region_witness :
    price_results dets3.enum = [((0, detPriceA), 349 / 100)] ∧
    ∃ rest, find_price_regions dets3.enum = [Region.mk ((0, detPriceA) :: rest)] ∧
      List.Perm ((0, detPriceA) :: rest) dets3.enum :=
  ⟨by decide,
   C4_single_anchor_one_region dets3 (0, detPriceA) (349 / 100)
     (by decide) (by decide) (by decide)⟩

/-! ## Claim C1 (amended): membership multiplicity across regions -/

theorem nodup_length_le_of_subset (l l2 : List Nat) (hn : l.Nodup)
    (h : l ⊆ l2) : l.length ≤ l2.length := by
  calc l.length = l.toFinset.card := (List.toFinset_card_of_nodup hn).symm
    _ ≤ l2.toFinset.card :=
      Finset.card_le_card
        (fun x hx => List.mem_toFinset.mpr (h (List.mem_toFinset.mp hx)))
    _ ≤ l2.length := l2.toFinset_card_le

theorem price_results_tags_sublist (tds : List TDet) :
    List.Sublist ((price_results tds).map (fun x => x.1.1))
      (tds.map (fun td => td.1)) := by
  induction tds with
  | nil => simp [price_results]
  | cons t ts ih =>
    rw [price_results, List.filterMap_cons]
    rw [price_results] at ih
    cases accept_price (lenient_price t.2.text) with
    | none =>
      rw [List.map_cons]
      exact List.Sublist.cons _ ih
    | some v =>
      rw [List.map_cons, List.map_cons]
      exact List.Sublist.cons₂ _ ih

theorem nearby_texts_tags_sublist (center : ℤ × ℤ) (used : List Nat)
    (tds : List TDet) :
    List.Sublist ((nearby_texts center used tds).map (fun x => x.1.1))
      (tds.map (fun td => td.1)) := by
  rw [nearby_texts_eq, List.map_map]
  have hfun : ((fun x : TDet × ℤ => x.1.1) ∘
      (fun td : TDet => (td, distSq center td.2.bbox.center))) =
      fun td : TDet => td.1 := by
    funext td; rfl
  rw [hfun]
  exact List.Sublist.map _ (List.filter_sublist tds)

theorem nearby_texts_fresh (center : ℤ × ℤ) (used : List Nat)
    (tds : List TDet) (x : TDet × ℤ) (hx : x ∈ nearby_texts center used tds) :
    x.1 ∈ tds ∧ x.1.1 ∉ used := by
  rw [nearby_texts_eq, List.mem_map] at hx
  obtain ⟨td, htd, hxeq⟩ := hx
  rw [List.mem_filter] at htd
  subst hxeq
  refine ⟨htd.1, ?_⟩
  have := htd.2
  simp only [Bool.and_eq_true, decide_eq_true_eq] at this
  exact this.1

/-- The body of the anchor loop: regions are the anchors consed onto
neighbor lists that are collectively duplicate-free, fresh with respect
to `used`, and drawn from the input detections. -/
theorem anchor_regions_members (tds : List TDet)
    (hT : (tds.map (fun td => td.1)).Nodup) :
    ∀ (anchors : List (TDet × ℚ)) (used : List Nat),
      ∃ tails : List (List TDet),
        tails.length = anchors.length ∧
        anchor_regions tds anchors used =
          (anchors.zip tails).map (fun x => Region.mk (x.1.1 :: x.2)) ∧
        ((tails.flatten.map (fun td => td.1)).Nodup) ∧
        (∀ i ∈ tails.flatten.map (fun td => td.1), i ∉ used) ∧
        (∀ td ∈ tails.flatten, td ∈ tds) := by
  intro anchors
  induction anchors with
  | nil =>
    intro used
    exact ⟨[], rfl, rfl, by simp, by simp, by simp⟩
  | cons av rest ih =>
    intro used
    obtain ⟨a, v⟩ := av
    obtain ⟨tails, hlen, heq, hnodup, hfresh, hmem⟩ :=
      ih ((a.1 :: used) ++
        ((sortBy (fun x y => y.2 < x.2)
          (nearby_texts a.2.bbox.center (a.1 :: used) tds)).take 10).map
          (fun x => x.1.1))
    -- facts about the claimed neighbors
    have hNBmem : ∀ x ∈ (sortBy (fun x y => y.2 < x.2)
        (nearby_texts a.2.bbox.center (a.1 :: used) tds)).take 10,
        x ∈ nearby_texts a.2.bbox.center (a.1 :: used) tds := fun x hx =>
      ((sortBy_perm _ _).mem_iff).mp (List.take_subset _ _ hx)
    have hNBnodup : (((sortBy (fun x y => y.2 < x.2)
        (nearby_texts a.2.bbox.center (a.1 :: used) tds)).take 10).map
        (fun x => x.1.1)).Nodup := by
      have h0 : ((nearby_texts a.2.bbox.center (a.1 :: used) tds).map
          (fun x => x.1.1)).Nodup :=
        List.Nodup.sublist (nearby_texts_tags_sublist _ _ _) hT
      have h1 : ((sortBy (fun x y => y.2 < x.2)
          (nearby_texts a.2.bbox.center (a.1 :: used) tds)).map
          (fun x => x.1.1)).Nodup :=
        (List.Perm.nodup_iff ((sortBy_perm _ _).map _)).mpr h0
      exact List.Nodup.sublist (List.Sublist.map _ (List.take_sublist _ _)) h1
    refine ⟨((sortBy (fun x y => y.2 < x.2)
        (nearby_texts a.2.bbox.center (a.1 :: used) tds)).take 10).map
        (fun x => x.1) :: tails, by simp [hlen], ?_, ?_, ?_, ?_⟩
    · simp only [anchor_regions, List.isEmpty_cons, Bool.false_eq_true, if_false]
      rw [List.zip_cons_cons, List.map_cons, heq]
    · -- duplicate freedom of the concatenated neighbor tags
      rw [List.flatten_cons, List.map_append, List.nodup_append, List.map_map]
      refine ⟨hNBnodup, hnodup, ?_⟩
      intro i hi hj
      exact (hfresh i hj) (List.mem_append_right _ hi)
    · -- freshness with respect to `used`
      rw [List.flatten_cons, List.map_append, List.map_map]
      intro i hi
      rcases List.mem_append.mp hi with h1 | h2
      · obtain ⟨x, hx, hxi⟩ := List.mem_map.mp h1
        subst hxi
        have := (nearby_texts_fresh _ _ _ x (hNBmem x hx)).2
        intro hu
        exact this (List.mem_cons_of_mem _ hu)
      · intro hu
        exact (hfresh i h2)
          (List.mem_append_left _ (List.mem_cons_of_mem _ hu))
    · -- membership in the input detections
      intro td htd
      rw [List.flatten_cons] at htd
      rcases List.mem_append.mp htd with h1 | h2
      · obtain ⟨x, hx, hxi⟩ := List.mem_map.mp h1
        subst hxi
        exact (nearby_texts_fresh _ _ _ x (hNBmem x hx)).1
      · exact hmem td h2

theorem flatten_zip_cons_perm {α β : Type} (f : β → α) :
    ∀ (as : List β) (ts : List (List α)), as.length = ts.length →
      List.Perm (((as.zip ts).map (fun x => f x.1 :: x.2)).flatten)
        (as.map f ++ ts.flatten) := by
  intro as
  induction as with
  | nil =>
    intro ts h
    have : ts = [] := List.length_eq_zero.mp h.symm
    subst this
    simp
  | cons a as ih =>
    intro ts h
    cases ts with
    | nil => simp at h
    | cons t ts' =>
      simp only [List.length_cons, Nat.add_right_cancel_iff] at h
      simp only [List.zip_cons_cons, List.map_cons, List.flatten_cons,
        List.cons_append]
      refine List.Perm.cons (f a) ?_
      refine (List.Perm.append_left t (ih ts' h)).trans ?_
      rw [← List.append_assoc, ← List.append_assoc]
      exact List.Perm.append_right _ List.perm_append_comm

theorem filterMap_self_tags_sublist (f : TDet → Option TDet)
    (hf : ∀ o x, f o = some x → x = o) (l : List TDet) :
    List.Sublist ((l.filterMap f).map (fun td => td.1))
      (l.map (fun td => td.1)) := by
  induction l with
  | nil => simp
  | cons t ts ih =>
    rw [List.filterMap_cons]
    cases hft : f t with
    | none =>
      rw [List.map_cons]
      exact List.Sublist.cons _ ih
    | some x =>
      have hxe : x = t := hf t x hft
      subst hxe
      rw [List.map_cons, List.map_cons]
      exact List.Sublist.cons₂ _ ih

theorem fallback_near_mem (center : ℤ × ℤ) (used1 : List Nat) (l : List TDet)
    (x : TDet)
    (hx : x ∈ l.filterMap (fun o => if o.1 ∈ used1 then none
      else if distSq center o.2.bbox.center < 150 ^ 2 then some o else none)) :
    x ∈ l ∧ x.1 ∉ used1 := by
  rw [List.mem_filterMap] at hx
  obtain ⟨o, ho, heq⟩ := hx
  by_cases h1 : o.1 ∈ used1
  · rw [if_pos h1] at heq; cases heq
  · rw [if_neg h1] at heq
    by_cases h2 : distSq center o.2.bbox.center < 150 ^ 2
    · rw [if_pos h2] at heq
      cases heq
      exact ⟨ho, h1⟩
    · rw [if_neg h2] at heq; cases heq

/-- The fallback loop claims every detection at most once: the
concatenated member tags are duplicate-free, fresh with respect to
`used`, and drawn from the (sorted) input. -/
theorem fallback_clusters_tags (sortedAll : List TDet)
    (hT : (sortedAll.map (fun td => td.1)).Nodup) :
    ∀ (queue : List TDet) (used : List Nat),
      (∀ x ∈ queue, x ∈ sortedAll) →
      ∀ (J : List Nat),
      J = ((fallback_clusters sortedAll queue used).map
        (fun r => r.texts.map (fun td => td.1))).flatten →
      J.Nodup ∧ (∀ i ∈ J, i ∉ used) ∧
        (∀ i ∈ J, i ∈ sortedAll.map (fun td => td.1)) := by
  intro queue
  induction queue with
  | nil =>
    intro used hq J hJ
    subst hJ
    simp [fallback_clusters]
  | cons td rest ih =>
    intro used hq J hJ
    rw [fallback_clusters] at hJ
    by_cases hu : td.1 ∈ used
    · rw [if_pos hu] at hJ
      exact ih used (fun x hx => hq x (List.mem_cons_of_mem _ hx)) J hJ
    · rw [if_neg hu] at hJ
      simp only [] at hJ
      -- the collected neighbors of this seed
      have hnear_mem : ∀ x ∈ sortedAll.filterMap (fun o =>
          if o.1 ∈ td.1 :: used then none
          else if distSq td.2.bbox.center o.2.bbox.center < 150 ^ 2 then some o
          else none), x ∈ sortedAll ∧ x.1 ∉ td.1 :: used :=
        fun x hx => fallback_near_mem _ _ _ x hx
      have hnear_nodup : ((sortedAll.filterMap (fun o =>
          if o.1 ∈ td.1 :: used then none
          else if distSq td.2.bbox.center o.2.bbox.center < 150 ^ 2 then some o
          else none)).map (fun td => td.1)).Nodup := by
        refine List.Nodup.sublist (filterMap_self_tags_sublist _ ?_ _) hT
        intro o x heq
        by_cases h1 : o.1 ∈ td.1 :: used
        · rw [if_pos h1] at heq; cases heq
        · rw [if_neg h1] at heq
          by_cases h2 : distSq td.2.bbox.center o.2.bbox.center < 150 ^ 2
          · rw [if_pos h2] at heq; cases heq; rfl
          · rw [if_neg h2] at heq; cases heq
      split at hJ
      · -- a region with this seed and its neighbors is emitted
        rename_i hguard
        rw [List.map_cons, List.flatten_cons] at hJ
        obtain ⟨h1, h2, h3⟩ := ih _ (fun x hx => hq x (List.mem_cons_of_mem _ hx)) _ rfl
        subst hJ
        constructor
        · rw [List.nodup_append]
          refine ⟨?_, h1, ?_⟩
          · rw [List.map_cons, List.nodup_cons]
            refine ⟨?_, hnear_nodup⟩
            intro hcon
            obtain ⟨x, hx, hxe⟩ := List.mem_map.mp hcon
            exact (hnear_mem x hx).2 (hxe ▸ List.mem_cons_self _ _)
          · intro i hi hcon
            have := h2 i hcon
            rw [List.map_cons] at hi
            rcases List.mem_cons.mp hi with he | hm
            · exact this (he ▸ List.mem_append_left _ (List.mem_cons_self _ _))
            · obtain ⟨x, hx, hxe⟩ := List.mem_map.mp hm
              exact this (List.mem_append_right _ (hxe ▸
                List.mem_map_of_mem (fun td => td.1) hx))
        constructor
        · intro i hi
          rcases List.mem_append.mp hi with hm | hm
          · rw [List.map_cons] at hm
            rcases List.mem_cons.mp hm with he | hm2
            · exact he ▸ hu
            · obtain ⟨x, hx, hxe⟩ := List.mem_map.mp hm2
              intro hcon
              exact (hnear_mem x hx).2 (hxe ▸ List.mem_cons_of_mem _ hcon)
          · intro hcon
            exact h2 i hm (List.mem_append_left _ (List.mem_cons_of_mem _ hcon))
        · intro i hi
          rcases List.mem_append.mp hi with hm | hm
          · rw [List.map_cons] at hm
            rcases List.mem_cons.mp hm with he | hm2
            · exact he ▸ List.mem_map_of_mem (fun td => td.1)
                (hq td (List.mem_cons_self _ _))
            · obtain ⟨x, hx, hxe⟩ := List.mem_map.mp hm2
              exact hxe ▸ List.mem_map_of_mem (fun td => td.1)
                (hnear_mem x hx).1
          · exact h3 i hm
      · -- the cluster is too small and is dropped
        obtain ⟨h1, h2, h3⟩ := ih _ (fun x hx => hq x (List.mem_cons_of_mem _ hx)) _ rfl
        subst hJ
        refine ⟨h1, ?_, h3⟩
        intro i hi hcon
        exact h2 i hi (List.mem_append_left _ (List.mem_cons_of_mem _ hcon))

theorem flatten_map_tags (L : List ((TDet × ℚ) × List TDet)) :
    ((L.map (fun x => Region.mk (x.1.1 :: x.2))).map
      (fun r => r.texts.map (fun td => td.1))).flatten =
    ((L.map (fun x => x.1.1 :: x.2)).flatten).map (fun td => td.1) := by
  induction L with
  | nil => rfl
  | cons x xs ih =>
    simp only [List.map_cons, List.flatten_cons, List.map_append, ih]

/-- Claim C1 (amended): across all regions of `_find_price_regions`,
every detection appears at most twice (once as a claimed neighbor and
once as the head of its own anchor region), and the multiset union has
at most N + A members, A being the number of price anchors.  (As
stated, the claim fails: an anchor already claimed by an earlier region
still founds its own region, see the counterexample.) -/
theorem C1_member_multiplicity (dets : List Det) :
    (∀ i : Nat, (region_member_tags dets.enum).count i ≤ 2) ∧
    (region_member_tags dets.enum).length ≤
      dets.length + (price_results dets.enum).length := by
  have hT : (dets.enum.map (fun td => td.1)).Nodup := by
    have := List.nodup_enum_map_fst dets
    simpa [Function.comp] using this
  rw [region_member_tags, find_price_regions]
  split
  · -- fallback path: every detection is claimed at most once
    rw [fallback_spatial_clustering]
    split
    · simp
    · have hTs : ((sortBy (fun x y =>
          lexLt (y.2.bbox.center.2, y.2.bbox.center.1)
            (x.2.bbox.center.2, x.2.bbox.center.1)) dets.enum).map
          (fun td => td.1)).Nodup :=
        (List.Perm.nodup_iff ((sortBy_perm _ _).map _)).mpr hT
      obtain ⟨h1, h2, h3⟩ :=
        fallback_clusters_tags _ hTs _ [] (fun x hx => hx) _ rfl
      constructor
      · intro i
        exact (List.nodup_iff_count_le_one.mp h1 i).trans (by omega)
      · have hle := nodup_length_le_of_subset _ _ h1 h3
        have hslen : ((sortBy (fun x y =>
            lexLt (y.2.bbox.center.2, y.2.bbox.center.1)
              (x.2.bbox.center.2, x.2.bbox.center.1)) dets.enum).map
            (fun td => td.1)).length = dets.length := by
          rw [List.length_map]
          rw [(sortBy_perm (fun x y =>
            lexLt (y.2.bbox.center.2, y.2.bbox.center.1)
              (x.2.bbox.center.2, x.2.bbox.center.1)) dets.enum).length_eq]
          exact List.enum_length
        exact (hle.trans_eq hslen).trans (Nat.le_add_right _ _)
  · -- anchor path
    obtain ⟨tails, hlen, heq, hnodup, hfresh, hmem⟩ :=
      anchor_regions_members dets.enum hT (price_results dets.enum) []
    rw [heq]
    rw [flatten_map_tags]
    have hpermB : List.Perm
        ((((price_results dets.enum).zip tails).map
          (fun x => x.1.1 :: x.2)).flatten)
        ((price_results dets.enum).map (fun av => av.1) ++ tails.flatten) :=
      flatten_zip_cons_perm (fun av : TDet × ℚ => av.1) _ tails hlen.symm
    have hpermJ : List.Perm
        (((((price_results dets.enum).zip tails).map
          (fun x => x.1.1 :: x.2)).flatten).map (fun td => td.1))
        (((price_results dets.enum).map (fun x => x.1.1)) ++
          tails.flatten.map (fun td => td.1)) := by
      have h0 := hpermB.map (fun td : TDet => td.1)
      rw [List.map_append, List.map_map] at h0
      exact h0
    have hAnodup : ((price_results dets.enum).map
        (fun x => x.1.1)).Nodup :=
      List.Nodup.sublist (price_results_tags_sublist dets.enum) hT
    have htailsub : ∀ i ∈ tails.flatten.map (fun td => td.1),
        i ∈ dets.enum.map (fun td => td.1) := by
      intro i hi
      obtain ⟨td, htd, hte⟩ := List.mem_map.mp hi
      exact hte ▸ List.mem_map_of_mem (fun td => td.1) (hmem td htd)
    have htaillen : tails.flatten.length ≤ dets.length := by
      have h := nodup_length_le_of_subset _ _ hnodup htailsub
      simp only [List.length_map, List.enum_length] at h
      exact h
    constructor
    · intro i
      rw [hpermJ.count_eq, List.count_append]
      have c1 : (((price_results dets.enum).map (fun x => x.1.1)).count i) ≤ 1 :=
        List.nodup_iff_count_le_one.mp hAnodup i
      have c2 : ((tails.flatten.map (fun td => td.1)).count i) ≤ 1 :=
        List.nodup_iff_count_le_one.mp hnodup i
      omega
    · rw [hpermJ.length_eq, List.length_append, List.length_map, List.length_map]
      omega

/-! ## Claim C5 (amended): quantity extraction -/

/-- Claim C5 (amended): the extractor tries the single-quantity pattern
before the multipack pattern; the quantity is the first match of the
winning pattern (stripped, lower-cased), and the name has every
non-overlapping occurrence of that pattern removed — not only the
matched span — then is whitespace-normalized; with no match the name is
only whitespace-normalized. -/
theorem C5_quantity_extraction (s : Str) :
    (findFirstV matchQty1 s = none → findFirstV matchQty2 s = none →
      extract_quantity_from_name s = (strip (normWs s), [])) ∧
    (∀ m : Str × Str, findFirstV matchQty1 s = some m →
      extract_quantity_from_name s =
        (strip (normWs (subAll (fun t => (matchQty1 t).map (fun x => x.2)) s)),
         lowerStr (strip m.1))) ∧
    (∀ m : Str × Str, findFirstV matchQty1 s = none →
      findFirstV matchQty2 s = some m →
      extract_quantity_from_name s =
        (strip (normWs (subAll (fun t => (matchQty2 t).map (fun x => x.2)) s)),
         lowerStr (strip m.1))) := by
  refine ⟨?_, ?_, ?_⟩
  · intro h1 h2
    rw [extract_quantity_from_name, h1, h2]
  · intro m h1
    rw [extract_quantity_from_name, h1]
  · intro m h1 h2
    rw [extract_quantity_from_name, h1, h2]

/-- Claim C5 (witness): on `a 1g 2g` the first pattern matches `1g` and
every occurrence of the pattern is removed from the name. -/
theorem C5_quantity_extraction_witness :
    extract_quantity_from_name (str (r"a 1g 2g")) =
      (strip (normWs (subAll (fun t => (matchQty1 t).map (fun x => x.2))
        (str (r"a 1g 2g")))),
       lowerStr (strip (str (r"1g")))) :=
  (C5_quantity_extraction (str (r"a 1g 2g"))).2.1
    (str (r"1g"), str (r" 2g")) (by decide)

/-! ## Claim C2 (amended): emitted names are non-empty -/

theorem clean_product_name_stripped (t : Str) :
    strip (clean_product_name t) = clean_product_name t := by
  rw [clean_product_name]
  split
  · rfl
  · exact strip_idem _

theorem extract_quantity_fst_stripped (t : Str) :
    strip (extract_quantity_from_name t).1 = (extract_quantity_from_name t).1 := by
  rw [extract_quantity_from_name]
  split <;> exact strip_idem _

theorem region_product_fields_name_stripped (rg : Region)
    (f : Str × Option Str × ℚ × Option ℚ × Option Str × Option Str ×
      Option Position × ℚ)
    (hf : region_product_fields rg = some f) : strip f.1 = f.1 := by
  rw [region_product_fields] at hf
  cases hap : accept_price (lenient_price rg.combined_text) with
  | none =>
    simp only [hap] at hf
    cases hf
  | some pv =>
    simp only [hap] at hf
    split at hf
    · cases hf
    · split at hf
      · cases hf
      · have hfe := Option.some.inj hf
        subst hfe
        split
        · exact extract_quantity_fst_stripped _
        · exact clean_product_name_stripped _

/-- Claim C2 (amended): every Product emitted by
`_extract_product_from_region` has a non-empty name (length ≥ 1 after
cleaning); the ≥ 2 length gate applies to the pre-cleaning candidate,
and cleaning can shrink the name to a single character. -/
theorem C2_name_nonempty (idStr : Str) (rg : Region) (p : Product)
    (h : extract_product_from_region idStr rg = some p) :
    1 ≤ p.name.length := by
  rw [extract_product_from_region] at h
  cases hf : region_product_fields rg with
  | none => rw [hf] at h; cases h
  | some f =>
    rw [hf] at h
    simp only [Option.some_bind] at h
    rw [mkProduct.eq_def] at h
    split at h
    · cases h
    · rename_i hlen1
      split at h
      · cases h
      · split at h
        · cases h
        · split at h
          · cases h
          · have hp := Option.some.inj h
            have hname : p.name = strip f.1 := by rw [← hp]
            rw [hname, region_product_fields_name_stripped rg f hf]
            omega

/-- Claim C2 (witness): the short-name region is emitted with the
one-character name `A`. -/
theorem C2_name_nonempty_witness :
    extract_product_from_region (str (r"aaaaaaaa")) regionShortName =
      some productShortName ∧
    1 ≤ productShortName.name.length :=
  ⟨by decide,
   C2_name_nonempty (str (r"aaaaaaaa")) regionShortName productShortName
     (by decide)⟩

/-! ## Claim C3 (amended): determinism modulo generated ids -/

theorem mkProduct_eraseId (i i' n : Str) (d : Option Str) (pr : ℚ)
    (up : Option ℚ) (u : Option Str) (c : Str) (so : Option Str)
    (pos : Option Position) (conf : ℚ) :
    (mkProduct i n d pr up u c so pos conf).map eraseId =
    (mkProduct i' n d pr up u c so pos conf).map eraseId := by
  rw [mkProduct.eq_def, mkProduct.eq_def]
  split_ifs <;> rfl

theorem parse_go_eraseId (gen gen' : Nat → Str) :
    ∀ (rs : List Region) (k k' : Nat),
      (parse_products_go gen k rs).map eraseId =
      (parse_products_go gen' k' rs).map eraseId := by
  intro rs
  induction rs with
  | nil => intro k k'; rfl
  | cons r rs ih =>
    intro k k'
    rw [parse_products_go, parse_products_go]
    cases hf : region_product_fields r with
    | none => exact ih k k'
    | some f =>
      have he : (extract_product_from_region (gen k) r).map eraseId =
          (extract_product_from_region (gen' k') r).map eraseId := by
        rw [extract_product_from_region, extract_product_from_region, hf]
        simp only [Option.some_bind]
        exact mkProduct_eraseId _ _ _ _ _ _ _ _ _ _ _
      cases h1 : extract_product_from_region (gen k) r with
      | none =>
        cases h2 : extract_product_from_region (gen' k') r with
        | none => exact ih (k + 1) (k' + 1)
        | some p2 =>
          rw [h1, h2] at he
          cases he
      | some p1 =>
        cases h2 : extract_product_from_region (gen' k') r with
        | none =>
          rw [h1, h2] at he
          cases he
        | some p2 =>
          rw [h1, h2] at he
          have he2 : eraseId p1 = eraseId p2 := Option.some.inj he
          rw [List.map_cons, List.map_cons, he2, ih (k + 1) (k' + 1)]

/-- Claim C3 (amended): `parse_products` is deterministic up to the
generated `id` field: for every input and any two `uuid4` streams, the
outputs agree on every field except `id`. -/
theorem C3_deterministic_modulo_id (gen gen' : Nat → Str) (dets : List Det) :
    (parse_products gen dets).map eraseId =
    (parse_products gen' dets).map eraseId := by
  rw [parse_products, parse_products]
  exact parse_go_eraseId gen gen' _ 0 0

/-! ## Claim C6: idempotence of `clean_product_name`

Character-class facts, equations for the fuel-indexed `splitWs`, and
the interaction of `str.title` with splitting and joining. -/

theorem isAlpha_toUpperC (c : Nat) : isAlphaC (toUpperC c) = isAlphaC c := by
  rw [Bool.eq_iff_iff]
  simp only [isAlphaC, toUpperC, Bool.or_eq_true, Bool.and_eq_true,
    decide_eq_true_eq]
  split_ifs with h
  · simp only [Bool.and_eq_true, decide_eq_true_eq] at h
    omega
  · exact Iff.rfl

theorem isAlpha_toLowerC (c : Nat) : isAlphaC (toLowerC c) = isAlphaC c := by
  rw [Bool.eq_iff_iff]
  simp only [isAlphaC, toLowerC, Bool.or_eq_true, Bool.and_eq_true,
    decide_eq_true_eq]
  split_ifs with h
  · simp only [Bool.and_eq_true, decide_eq_true_eq] at h
    omega
  · exact Iff.rfl

theorem isSpace_toUpperC (c : Nat) : isSpaceC (toUpperC c) = isSpaceC c := by
  rw [Bool.eq_iff_iff]
  simp only [isSpaceC, toUpperC, Bool.or_eq_true, beq_iff_eq]
  split_ifs with h
  · simp only [Bool.and_eq_true, decide_eq_true_eq] at h
    omega
  · exact Iff.rfl

theorem isSpace_toLowerC (c : Nat) : isSpaceC (toLowerC c) = isSpaceC c := by
  rw [Bool.eq_iff_iff]
  simp only [isSpaceC, toLowerC, Bool.or_eq_true, beq_iff_eq]
  split_ifs with h
  · simp only [Bool.and_eq_true, decide_eq_true_eq] at h
    omega
  · exact Iff.rfl

theorem keepC_toUpperC (c : Nat) : keepC (toUpperC c) = keepC c := by
  rw [Bool.eq_iff_iff]
  simp only [keepC, isWordC, isAlnumC, isAlphaC, isDigitC, isSpaceC, toUpperC,
    Bool.or_eq_true, Bool.and_eq_true, decide_eq_true_eq, beq_iff_eq]
  split_ifs with h
  · simp only [Bool.and_eq_true, decide_eq_true_eq] at h
    omega
  · exact Iff.rfl

theorem keepC_toLowerC (c : Nat) : keepC (toLowerC c) = keepC c := by
  rw [Bool.eq_iff_iff]
  simp only [keepC, isWordC, isAlnumC, isAlphaC, isDigitC, isSpaceC, toLowerC,
    Bool.or_eq_true, Bool.and_eq_true, decide_eq_true_eq, beq_iff_eq]
  split_ifs with h
  · simp only [Bool.and_eq_true, decide_eq_true_eq] at h
    omega
  · exact Iff.rfl

theorem toUpperC_toUpperC (c : Nat) : toUpperC (toUpperC c) = toUpperC c := by
  simp only [toUpperC]
  split_ifs with h1 h2 <;> first | rfl | (simp_all; omega)

theorem toLowerC_toLowerC (c : Nat) : toLowerC (toLowerC c) = toLowerC c := by
  simp only [toLowerC]
  split_ifs with h1 h2 <;> first | rfl | (simp_all; omega)

theorem space_not_alpha (c : Nat) (h : isSpaceC c = true) : isAlphaC c = false := by
  simp only [isSpaceC, Bool.or_eq_true, beq_iff_eq] at h
  rcases h with ((((h | h) | h) | h) | h) | h <;> subst h <;> rfl

/-- The character written by one step of `str.title`. -/
theorem titleChar_space (b : Bool) (c : Nat) :
    isSpaceC (if isAlphaC c then (if b then toLowerC c else toUpperC c) else c) =
      isSpaceC c := by
  split_ifs with h1 h2
  · exact isSpace_toLowerC c
  · exact isSpace_toUpperC c
  · rfl

theorem titleChar_keep (b : Bool) (c : Nat) :
    keepC (if isAlphaC c then (if b then toLowerC c else toUpperC c) else c) =
      keepC c := by
  split_ifs with h1 h2
  · exact keepC_toLowerC c
  · exact keepC_toUpperC c
  · rfl

/-! ### Equations for the fuel-indexed `splitWs` -/

theorem splitWs_go_congr :
    ∀ (fuel fuel' : Nat) (s : Str), s.length ≤ fuel → s.length ≤ fuel' →
      splitWs.go fuel s = splitWs.go fuel' s := by
  intro fuel
  induction fuel with
  | zero =>
    intro fuel' s hs hs'
    have : s = [] := List.length_eq_zero.mp (Nat.le_zero.mp hs)
    subst this
    cases fuel' <;> rfl
  | succ n ih =>
    intro fuel' s hs hs'
    cases s with
    | nil => cases fuel' <;> rfl
    | cons c cs =>
      cases fuel' with
      | zero => simp at hs'
      | succ m =>
        rw [List.length_cons] at hs hs'
        rw [splitWs.go, splitWs.go]
        by_cases hsp : isSpaceC c
        · rw [if_pos hsp, if_pos hsp]
          exact ih m cs (by omega) (by omega)
        · rw [if_neg hsp, if_neg hsp]
          have hd : (cs.dropWhile (fun d => !isSpaceC d)).length ≤ cs.length :=
            (List.IsSuffix.sublist (List.dropWhile_suffix _)).length_le
          rw [ih m (cs.dropWhile (fun d => !isSpaceC d)) (by omega) (by omega)]

theorem splitWs_nil : splitWs [] = [] := rfl

theorem splitWs_cons (c : Nat) (cs : Str) :
    splitWs (c :: cs) =
      if isSpaceC c then splitWs cs
      else (c :: cs.takeWhile (fun d => !isSpaceC d)) ::
        splitWs (cs.dropWhile (fun d => !isSpaceC d)) := by
  show splitWs.go (c :: cs).length (c :: cs) = _
  rw [List.length_cons, splitWs.go]
  by_cases hsp : isSpaceC c
  · rw [if_pos hsp, if_pos hsp]
    rfl
  · rw [if_neg hsp, if_neg hsp]
    have hd : (cs.dropWhile (fun d => !isSpaceC d)).length ≤ cs.length :=
      (List.IsSuffix.sublist (List.dropWhile_suffix _)).length_le
    rw [splitWs_go_congr cs.length (cs.dropWhile (fun d => !isSpaceC d)).length
      (cs.dropWhile (fun d => !isSpaceC d)) (by omega) (by omega)]
    rfl

/-! ### `str.title` facts -/

theorem titleAux_nil (b : Bool) : titleAux b [] = [] := rfl

theorem titleAux_cons (b : Bool) (c : Nat) (cs : Str) :
    titleAux b (c :: cs) =
      (if isAlphaC c then (if b then toLowerC c else toUpperC c) else c) ::
        titleAux (isAlphaC c) cs := rfl

theorem titleChar_alpha (b : Bool) (c : Nat) :
    isAlphaC (if isAlphaC c then (if b then toLowerC c else toUpperC c) else c) =
      isAlphaC c := by
  split_ifs with h1 h2
  · exact isAlpha_toLowerC c
  · exact isAlpha_toUpperC c
  · rfl

theorem titleAux_idem : ∀ (s : Str) (b : Bool),
    titleAux b (titleAux b s) = titleAux b s := by
  intro s
  induction s with
  | nil => intro b; rfl
  | cons c cs ih =>
    intro b
    rw [titleAux_cons, titleAux_cons, titleChar_alpha, ih (isAlphaC c)]
    congr 1
    by_cases ha : isAlphaC c <;> by_cases hb : b <;>
      simp [ha, hb, toLowerC_toLowerC, toUpperC_toUpperC]

theorem titleAux_append_space : ∀ (w : Str) (b : Bool) (t : Str),
    titleAux b (w ++ 32 :: t) = titleAux b w ++ 32 :: titleAux false t := by
  intro w
  induction w with
  | nil =>
    intro b t
    have h32 : isAlphaC 32 = false := rfl
    simp [titleAux_cons, h32, titleAux_nil]
  | cons c w' ih =>
    intro b t
    simp only [List.cons_append, titleAux_cons, ih]

theorem titled_words_join : ∀ (ws : List Str),
    (∀ w ∈ ws, titleAux false w = w) →
    titleAux false (joinSp ws) = joinSp ws := by
  intro ws
  induction ws with
  | nil => intro h; rfl
  | cons w ws' ih =>
    intro h
    cases ws' with
    | nil => exact h w (List.mem_singleton.mpr rfl)
    | cons w2 rest =>
      show titleAux false (w ++ 32 :: joinSp (w2 :: rest)) = _
      rw [titleAux_append_space, h w (List.mem_cons_self _ _),
        ih (fun v hv => h v (List.mem_cons_of_mem _ hv))]
      rfl

theorem titleAux_takeWhile : ∀ (l : Str) (b : Bool),
    (titleAux b l).takeWhile (fun d => !isSpaceC d) =
      titleAux b (l.takeWhile (fun d => !isSpaceC d)) := by
  intro l
  induction l with
  | nil => intro b; rfl
  | cons c cs ih =>
    intro b
    rw [titleAux_cons, List.takeWhile_cons, List.takeWhile_cons]
    by_cases hsp : isSpaceC c
    · simp [titleChar_space, hsp, titleAux_nil]
    · simp only [titleChar_space, hsp, Bool.not_false, if_true, titleAux_cons, ih]

theorem titleAux_dropWhile : ∀ (l : Str) (b : Bool),
    ∃ e, (titleAux b l).dropWhile (fun d => !isSpaceC d) =
      titleAux e (l.dropWhile (fun d => !isSpaceC d)) := by
  intro l
  induction l with
  | nil => intro b; exact ⟨b, rfl⟩
  | cons c cs ih =>
    intro b
    by_cases hsp : isSpaceC c
    · refine ⟨b, ?_⟩
      rw [titleAux_cons, List.dropWhile_cons, List.dropWhile_cons]
      simp [titleChar_space, hsp, titleAux_cons]
    · rw [titleAux_cons, List.dropWhile_cons, List.dropWhile_cons]
      simp only [titleChar_space, hsp, Bool.not_false, if_true]
      exact ih (isAlphaC c)

theorem splitWs_title : ∀ (n : Nat) (s : Str), s.length ≤ n →
    splitWs (titleAux false s) = (splitWs s).map (titleAux false) := by
  intro n
  induction n with
  | zero =>
    intro s hs
    have : s = [] := List.length_eq_zero.mp (Nat.le_zero.mp hs)
    subst this
    rfl
  | succ n ih =>
    intro s hs
    cases s with
    | nil => rfl
    | cons c cs =>
      rw [List.length_cons] at hs
      by_cases hsp : isSpaceC c
      · have hna : isAlphaC c = false := space_not_alpha c hsp
        rw [titleAux_cons, hna, if_neg Bool.false_ne_true]
        rw [splitWs_cons, if_pos hsp, splitWs_cons, if_pos hsp]
        exact ih cs (by omega)
      · rw [titleAux_cons, splitWs_cons,
          if_neg (show ¬isSpaceC (if isAlphaC c = true then
            (if false = true then toLowerC c else toUpperC c) else c) = true by
              rw [titleChar_space]; exact hsp),
          splitWs_cons, if_neg hsp]
        rw [List.map_cons]
        congr 1
        · rw [titleAux_cons, titleAux_takeWhile]
        · obtain ⟨e, he⟩ := titleAux_dropWhile cs (isAlphaC c)
          rw [he]
          rcases hd : cs.dropWhile (fun d => !isSpaceC d) with _ | ⟨d, rest⟩
          · rfl
          · have hds : isSpaceC d = true := by
              have := head_dropWhile_false (fun d => !isSpaceC d) cs d
                (by rw [hd]; rfl)
              simpa using this
            have hdna : isAlphaC d = false := space_not_alpha d hds
            rw [titleAux_cons, hdna, if_neg Bool.false_ne_true]
            rw [splitWs_cons, if_pos hds, splitWs_cons, if_pos hds]
            have hlen : rest.length ≤ n := by
              have h1 : (cs.dropWhile (fun d => !isSpaceC d)).length ≤ cs.length :=
                (List.IsSuffix.sublist (List.dropWhile_suffix _)).length_le
              rw [hd, List.length_cons] at h1
              omega
            exact ih rest hlen

/-! ### Words of `splitWs`, `joinSp` and `strip` -/

theorem takeWhile_eq_self_of (l : Str) (p : Nat → Bool)
    (h : ∀ x ∈ l, p x = true) : l.takeWhile p = l := by
  induction l with
  | nil => rfl
  | cons a as ih =>
    rw [List.takeWhile_cons, if_pos (h a (List.mem_cons_self a as))]
    rw [ih (fun x hx => h x (List.mem_cons_of_mem a hx))]

theorem mem_of_getLast?_eq (l : Str) (c : Nat) (h : l.getLast? = some c) :
    c ∈ l := by
  obtain ⟨hne, he⟩ :=
    List.mem_getLast?_eq_getLast (show c ∈ l.getLast? from h)
  rw [he]
  exact List.getLast_mem hne

theorem splitWs_word_props : ∀ (n : Nat) (s : Str), s.length ≤ n →
    ∀ w ∈ splitWs s, w ≠ [] ∧ ∀ c ∈ w, isSpaceC c = false := by
  intro n
  induction n with
  | zero =>
    intro s hs
    have : s = [] := List.length_eq_zero.mp (Nat.le_zero.mp hs)
    subst this
    intro w hw
    cases hw
  | succ n ih =>
    intro s hs
    cases s with
    | nil => intro w hw; cases hw
    | cons c cs =>
      rw [List.length_cons] at hs
      rw [splitWs_cons]
      by_cases hsp : isSpaceC c
      · rw [if_pos hsp]
        exact ih cs (by omega)
      · rw [if_neg hsp]
        intro w hw
        rcases List.mem_cons.mp hw with h1 | h2
        · subst h1
          refine ⟨List.cons_ne_nil _ _, ?_⟩
          intro d hd
          rcases List.mem_cons.mp hd with he | hm
          · subst he
            simpa using hsp
          · have := List.mem_takeWhile_imp hm
            simpa using this
        · have hlen : (cs.dropWhile (fun d => !isSpaceC d)).length ≤ n := by
            have := (List.IsSuffix.sublist (List.dropWhile_suffix
              (fun d => !isSpaceC d) (l := cs))).length_le
            omega
          exact ih _ hlen w h2

theorem splitWs_word_chars : ∀ (n : Nat) (s : Str), s.length ≤ n →
    ∀ w ∈ splitWs s, ∀ c ∈ w, c ∈ s := by
  intro n
  induction n with
  | zero =>
    intro s hs
    have : s = [] := List.length_eq_zero.mp (Nat.le_zero.mp hs)
    subst this
    intro w hw
    cases hw
  | succ n ih =>
    intro s hs
    cases s with
    | nil => intro w hw; cases hw
    | cons c cs =>
      rw [List.length_cons] at hs
      rw [splitWs_cons]
      by_cases hsp : isSpaceC c
      · rw [if_pos hsp]
        intro w hw d hd
        exact List.mem_cons_of_mem c (ih cs (by omega) w hw d hd)
      · rw [if_neg hsp]
        intro w hw d hd
        rcases List.mem_cons.mp hw with h1 | h2
        · subst h1
          rcases List.mem_cons.mp hd with he | hm
          · exact he ▸ List.mem_cons_self _ _
          · exact List.mem_cons_of_mem c
              ((List.takeWhile_sublist _).subset hm)
        · have hlen : (cs.dropWhile (fun d => !isSpaceC d)).length ≤ n := by
            have := (List.IsSuffix.sublist (List.dropWhile_suffix
              (fun d => !isSpaceC d) (l := cs))).length_le
            omega
          have hmem := ih _ hlen w h2 d hd
          exact List.mem_cons_of_mem c
            ((List.dropWhile_suffix (fun d => !isSpaceC d)).subset hmem)

theorem splitWs_single (w : Str) (hne : w ≠ [])
    (hns : ∀ c ∈ w, isSpaceC c = false) : splitWs w = [w] := by
  cases w with
  | nil => exact absurd rfl hne
  | cons c rest =>
    rw [splitWs_cons, if_neg (by simp [hns c (List.mem_cons_self c rest)])]
    rw [takeWhile_eq_self_of rest _ (fun x hx => by
      simp [hns x (List.mem_cons_of_mem c hx)])]
    rw [List.dropWhile_eq_nil_iff.mpr (fun x hx => by
      simp [hns x (List.mem_cons_of_mem c hx)])]
    rfl

theorem takeWhile_append_word (l1 l2 : Str)
    (h : ∀ c ∈ l1, isSpaceC c = false) :
    (l1 ++ 32 :: l2).takeWhile (fun d => !isSpaceC d) = l1 := by
  induction l1 with
  | nil => rfl
  | cons a as ih =>
    rw [List.cons_append, List.takeWhile_cons,
      if_pos (by simp [h a (List.mem_cons_self a as)])]
    rw [ih (fun c hc => h c (List.mem_cons_of_mem a hc))]

theorem dropWhile_append_word (l1 l2 : Str)
    (h : ∀ c ∈ l1, isSpaceC c = false) :
    (l1 ++ 32 :: l2).dropWhile (fun d => !isSpaceC d) = 32 :: l2 := by
  induction l1 with
  | nil => rfl
  | cons a as ih =>
    rw [List.cons_append, List.dropWhile_cons,
      if_pos (by simp [h a (List.mem_cons_self a as)])]
    exact ih (fun c hc => h c (List.mem_cons_of_mem a hc))

theorem splitWs_joinSp : ∀ (ws : List Str),
    (∀ w ∈ ws, w ≠ [] ∧ ∀ c ∈ w, isSpaceC c = false) →
    splitWs (joinSp ws) = ws := by
  intro ws
  induction ws with
  | nil => intro h; rfl
  | cons w ws' ih =>
    intro h
    obtain ⟨hne, hns⟩ := h w (List.mem_cons_self _ _)
    cases ws' with
    | nil => exact splitWs_single w hne hns
    | cons w2 rest =>
      show splitWs (w ++ 32 :: joinSp (w2 :: rest)) = _
      cases w with
      | nil => exact absurd rfl hne
      | cons c wr =>
        rw [List.cons_append, splitWs_cons,
          if_neg (by simp [hns c (List.mem_cons_self c wr)])]
        rw [takeWhile_append_word wr _ (fun d hd => hns d
          (List.mem_cons_of_mem c hd))]
        rw [dropWhile_append_word wr _ (fun d hd => hns d
          (List.mem_cons_of_mem c hd))]
        rw [splitWs_cons, if_pos (by rfl)]
        rw [ih (fun v hv => h v (List.mem_cons_of_mem _ hv))]

theorem joinSp_chars : ∀ (ws : List Str) (c : Nat), c ∈ joinSp ws →
    c = 32 ∨ ∃ w ∈ ws, c ∈ w := by
  intro ws
  induction ws with
  | nil => intro c hc; cases hc
  | cons w ws' ih =>
    intro c hc
    cases ws' with
    | nil => exact Or.inr ⟨w, List.mem_singleton.mpr rfl, hc⟩
    | cons w2 rest =>
      rcases List.mem_append.mp hc with h1 | h2
      · exact Or.inr ⟨w, List.mem_cons_self _ _, h1⟩
      · rcases List.mem_cons.mp h2 with he | hm
        · exact Or.inl he
        · rcases ih c hm with he | ⟨v, hv, hcv⟩
          · exact Or.inl he
          · exact Or.inr ⟨v, List.mem_cons_of_mem _ hv, hcv⟩

theorem joinSp_ne_nil (w : Str) (ws : List Str) (hne : w ≠ []) :
    joinSp (w :: ws) ≠ [] := by
  cases ws with
  | nil => exact hne
  | cons w2 rest =>
    cases w with
    | nil => exact absurd rfl hne
    | cons c wr => simp [joinSp]

theorem joinSp_head (w : Str) (ws : List Str) :
    w ≠ [] → (joinSp (w :: ws)).head? = w.head? := by
  intro hne
  cases ws with
  | nil => rfl
  | cons w2 rest =>
    cases w with
    | nil => exact absurd rfl hne
    | cons c wr => rfl

theorem joinSp_getLast : ∀ (ws : List Str), ws ≠ [] →
    (∀ v ∈ ws, v ≠ []) →
    ∃ v ∈ ws, (joinSp ws).getLast? = v.getLast? := by
  intro ws
  induction ws with
  | nil => intro h; exact absurd rfl h
  | cons w ws' ih =>
    intro _ hv
    cases ws' with
    | nil => exact ⟨w, List.mem_singleton.mpr rfl, rfl⟩
    | cons w2 rest =>
      obtain ⟨v, hvm, hve⟩ := ih (List.cons_ne_nil _ _)
        (fun u hu => hv u (List.mem_cons_of_mem _ hu))
      refine ⟨v, List.mem_cons_of_mem _ hvm, ?_⟩
      show (w ++ 32 :: joinSp (w2 :: rest)).getLast? = _
      rw [List.getLast?_append_of_ne_nil w (List.cons_ne_nil _ _)]
      rw [show (32 :: joinSp (w2 :: rest)).getLast? =
        (joinSp (w2 :: rest)).getLast? from by
          cases hj : joinSp (w2 :: rest) with
          | nil => exact absurd hj (joinSp_ne_nil w2 rest
              (hv w2 (List.mem_cons_of_mem _ (List.mem_cons_self _ _))))
          | cons d ds => rfl]
      exact hve

theorem strip_joinSp (ws : List Str)
    (h : ∀ w ∈ ws, w ≠ [] ∧ ∀ c ∈ w, isSpaceC c = false) :
    strip (joinSp ws) = joinSp ws := by
  cases ws with
  | nil => rfl
  | cons w ws' =>
    apply strip_eq_self
    · intro c hc
      rw [joinSp_head w ws' (h w (List.mem_cons_self _ _)).1] at hc
      exact (h w (List.mem_cons_self _ _)).2 c (List.mem_of_mem_head? hc)
    · intro c hc
      obtain ⟨v, hvm, hve⟩ := joinSp_getLast (w :: ws') (List.cons_ne_nil _ _)
        (fun u hu => (h u hu).1)
      rw [hve] at hc
      exact (h v hvm).2 c (mem_of_getLast?_eq v c hc)

theorem titleAux_chars : ∀ (s : Str) (b : Bool) (c : Nat), c ∈ titleAux b s →
    ∃ c0 ∈ s, c = c0 ∨ c = toUpperC c0 ∨ c = toLowerC c0 := by
  intro s
  induction s with
  | nil => intro b c hc; cases hc
  | cons d ds ih =>
    intro b c hc
    rw [titleAux_cons] at hc
    rcases List.mem_cons.mp hc with he | hm
    · refine ⟨d, List.mem_cons_self _ _, ?_⟩
      subst he
      split_ifs <;> simp
    · obtain ⟨c0, hc0, hor⟩ := ih (isAlphaC d) c hm
      exact ⟨c0, List.mem_cons_of_mem _ hc0, hor⟩

/-- A space-join of nonempty, space-free, all-kept, titled, noise-free words
is a fixed point of `clean_product_name`. -/
theorem canon_of_words (ws : List Str)
    (hprops : ∀ w ∈ ws, w ≠ [] ∧ ∀ c ∈ w, isSpaceC c = false)
    (hkeep : ∀ w ∈ ws, ∀ c ∈ w, keepC c = true)
    (htitle : ∀ w ∈ ws, titleAux false w = w)
    (hnoise : ∀ w ∈ ws, NOISE_WORDS.contains (lowerStr w) = false) :
    clean_product_name (joinSp ws) = joinSp ws := by
  cases ws with
  | nil => rfl
  | cons w0 ws' =>
    have hj : joinSp (w0 :: ws') ≠ [] :=
      joinSp_ne_nil w0 ws' (hprops w0 (List.mem_cons_self _ _)).1
    have hcond : (joinSp (w0 :: ws')).isEmpty = false := by
      cases hc : joinSp (w0 :: ws') with
      | nil => exact absurd hc hj
      | cons a as => rfl
    have h1 : normWs (joinSp (w0 :: ws')) = joinSp (w0 :: ws') := by
      unfold normWs
      rw [splitWs_joinSp _ hprops]
    have h2 : (joinSp (w0 :: ws')).filter keepC = joinSp (w0 :: ws') := by
      apply List.filter_eq_self.mpr
      intro c hc
      rcases joinSp_chars _ c hc with h32 | ⟨w, hw, hcw⟩
      · rw [h32]; rfl
      · exact hkeep w hw c hcw
    have h3 : titleStr (joinSp (w0 :: ws')) = joinSp (w0 :: ws') :=
      titled_words_join _ htitle
    have h4 : splitWs (joinSp (w0 :: ws')) = w0 :: ws' :=
      splitWs_joinSp _ hprops
    have h5 : (w0 :: ws').filter
        (fun w => !(NOISE_WORDS.contains (lowerStr w))) = w0 :: ws' := by
      apply List.filter_eq_self.mpr
      intro w hw
      rw [hnoise w hw]
      rfl
    unfold clean_product_name
    rw [hcond, if_neg Bool.false_ne_true]
    show strip (joinSp ((splitWs (titleStr
      ((normWs (joinSp (w0 :: ws'))).filter keepC))).filter
        (fun w => !(NOISE_WORDS.contains (lowerStr w))))) = _
    rw [h1, h2, h3, h4, h5]
    exact strip_joinSp _ hprops

/-- Claim C6: `clean_product_name` is idempotent — cleaning an
already-cleaned product name returns it unchanged. -/
theorem C6_clean_idempotent (x : Str) :
    clean_product_name (clean_product_name x) = clean_product_name x := by
  by_cases hx : x.isEmpty = true
  · have hxe : clean_product_name x = [] := by
      unfold clean_product_name
      rw [hx, if_pos rfl]
    rw [hxe]
    rfl
  · have hxd : clean_product_name x =
        strip (joinSp ((splitWs (titleStr
          ((normWs x).filter keepC))).filter
            (fun w => !(NOISE_WORDS.contains (lowerStr w))))) := by
      unfold clean_product_name
      rw [Bool.eq_false_iff.mpr hx, if_neg Bool.false_ne_true]
    set s2 : Str := (normWs x).filter keepC with hs2
    set ws2 : List Str := (splitWs (titleStr s2)).filter
      (fun w => !(NOISE_WORDS.contains (lowerStr w))) with hws2
    have hmem : ∀ w ∈ ws2, w ∈ splitWs (titleStr s2) :=
      fun w hw => List.mem_of_mem_filter hw
    have hprops : ∀ w ∈ ws2, w ≠ [] ∧ ∀ c ∈ w, isSpaceC c = false :=
      fun w hw => splitWs_word_props (titleStr s2).length (titleStr s2)
        (Nat.le_refl _) w (hmem w hw)
    have hkeep : ∀ w ∈ ws2, ∀ c ∈ w, keepC c = true := by
      intro w hw c hc
      have hcs : c ∈ titleStr s2 :=
        splitWs_word_chars (titleStr s2).length (titleStr s2)
          (Nat.le_refl _) w (hmem w hw) c hc
      obtain ⟨c0, hc0, hor⟩ := titleAux_chars s2 false c hcs
      have hk0 : keepC c0 = true := List.of_mem_filter hc0
      rcases hor with he | he | he
      · rw [he]; exact hk0
      · rw [he, keepC_toUpperC]; exact hk0
      · rw [he, keepC_toLowerC]; exact hk0
    have htitle : ∀ w ∈ ws2, titleAux false w = w := by
      intro w hw
      have := hmem w hw
      rw [show titleStr s2 = titleAux false s2 from rfl,
        splitWs_title s2.length s2 (Nat.le_refl _)] at this
      obtain ⟨v, _, hv⟩ := List.mem_map.mp this
      rw [← hv]
      exact titleAux_idem v false
    have hnoise : ∀ w ∈ ws2, NOISE_WORDS.contains (lowerStr w) = false := by
      intro w hw
      have := List.of_mem_filter hw
      simpa using this
    have hstrip : strip (joinSp ws2) = joinSp ws2 := strip_joinSp _ hprops
    rw [hxd, hstrip]
    exact canon_of_words ws2 hprops hkeep htitle hnoise

end Leaflet
